import Mathlib

set_option maxRecDepth 4096

/-!
Verification of the metadata-bearing ZIP archive wrapper (`zipper/core.py`).

The development shallowly embeds:
* the metadata codec (`_encode_metadata` / `_decode_metadata`), which delegates to
  `json.dumps(·, ensure_ascii=True).encode('utf-8')` and
  `json.loads(comment.decode('utf-8'))` with a legacy plain-text fallback;
* Python's `json` serializer/parser (restricted to the JSON trees the system
  stores: null, booleans, arbitrary-precision integers, Unicode-scalar strings,
  arrays, string-keyed objects; IEEE-754 floats and lone-surrogate strings are
  outside the embedding);
* Python's UTF-8 codec, both strict and `errors='replace'` (maximal-subpart
  replacement, as CPython implements it);
* the `ZipArchive` handle and the relevant CPython `zipfile` container
  semantics: `writestr` appends the new `ZipInfo` to `filelist` (duplicate
  names are kept), while `NameToInfo` — used by `getinfo` — maps a name to the
  most recently written entry.

Python exceptions are modelled as explicit error values (the spec's taxonomy):
`RuntimeError` for the closed-handle and write-mode guards, `FileNotFoundError`
as `notFound`, `KeyError` as `notFoundInArchive`, `TypeError`/`ValueError` from
`json.dumps` as `serialization`. Operations that mutate the handle return
`Option ZipErr × ZipArchive` (an error leaves the state exactly as it was,
mirroring the fact that every `raise` in the source happens before any
mutation); read operations return `Except ZipErr`.
-/

/-- JSON whitespace characters, as in `json.decoder.WHITESPACE` (` \t\n\r`). -/
def wsChar (c : Char) : Bool :=
  c = ' ' || c = '\t' || c = '\n' || c = '\r'

/-- Skip leading JSON whitespace. -/
def skipWs (cs : List Char) : List Char :=
  cs.dropWhile wsChar

/-- ASCII decimal digit test. -/
def isDig (c : Char) : Bool :=
  48 ≤ c.toNat && c.toNat ≤ 57

/-- Lowercase hexadecimal digit for a value below 16 (as `'\u%04x' % n`). -/
def hexDigitChar (n : Nat) : Char :=
  Char.ofNat (if n < 10 then 48 + n else 87 + n)

/-- Value of a hexadecimal digit character; `int(s, 16)` accepts both cases. -/
def hexVal (c : Char) : Option Nat :=
  if 48 ≤ c.toNat ∧ c.toNat ≤ 57 then some (c.toNat - 48)
  else if 97 ≤ c.toNat ∧ c.toNat ≤ 102 then some (c.toNat - 87)
  else if 65 ≤ c.toNat ∧ c.toNat ≤ 70 then some (c.toNat - 55)
  else none

/-- Decimal digits of `n` (most significant first), fuel-indexed so that the
definition is structural; any `fuel > n` yields the digits of `n`. -/
def natChars : Nat → Nat → List Char
  | 0, _ => []
  | fuel + 1, n =>
    if n < 10 then [Char.ofNat (48 + n)]
    else natChars fuel (n / 10) ++ [Char.ofNat (48 + n % 10)]

/-- Decimal representation of an integer, as `int.__repr__` renders it. -/
def intChars (i : Int) : List Char :=
  if i < 0 then '-' :: natChars (i.natAbs + 1) i.natAbs
  else natChars (i.toNat + 1) i.toNat

/-- UTF-8 encoding of one Unicode scalar value (`str.encode('utf-8')`). -/
def utf8EncodeChar (c : Char) : List Nat :=
  let n := c.toNat
  if n < 0x80 then [n]
  else if n < 0x800 then [0xC0 + n / 64, 0x80 + n % 64]
  else if n < 0x10000 then [0xE0 + n / 4096, 0x80 + n / 64 % 64, 0x80 + n % 64]
  else [0xF0 + n / 262144, 0x80 + n / 4096 % 64, 0x80 + n / 64 % 64, 0x80 + n % 64]

/-- UTF-8 encoding of a string. -/
def utf8Encode (s : String) : List Nat :=
  s.data.flatMap utf8EncodeChar

/-- Continuation byte test (`0x80..0xBF`). -/
def contByte (b : Nat) : Bool :=
  0x80 ≤ b && b < 0xC0

/-- Admissible first continuation byte after a three-byte lead, per the
UTF-8 validity table (rejecting overlong forms and surrogates, exactly as
CPython's strict UTF-8 decoder does). -/
def cont3For (b b1 : Nat) : Bool :=
  if b = 0xE0 then 0xA0 ≤ b1 && b1 < 0xC0
  else if b = 0xED then 0x80 ≤ b1 && b1 < 0xA0
  else contByte b1

/-- Admissible first continuation byte after a four-byte lead. -/
def cont4For (b b1 : Nat) : Bool :=
  if b = 0xF0 then 0x90 ≤ b1 && b1 < 0xC0
  else if b = 0xF4 then 0x80 ≤ b1 && b1 < 0x90
  else contByte b1

/-- Decode one scalar from the front of a byte stream: the leading byte and
the rest. `none` is an ill-formed sequence (overlong form, surrogate,
out-of-range lead, bad or missing continuation). -/
def utf8Step (b : Nat) (bs : List Nat) : Option (Char × List Nat) :=
  if b < 0x80 then some (Char.ofNat b, bs)
  else if b < 0xC2 then none
  else if b < 0xE0 then
    match bs with
    | b1 :: bs1 =>
      if contByte b1 then some (Char.ofNat ((b - 0xC0) * 64 + (b1 - 0x80)), bs1)
      else none
    | [] => none
  else if b < 0xF0 then
    match bs with
    | b1 :: bs1 =>
      match bs1 with
      | b2 :: bs2 =>
        if cont3For b b1 ∧ contByte b2 then
          some (Char.ofNat ((b - 0xE0) * 4096 + (b1 - 0x80) * 64 + (b2 - 0x80)), bs2)
        else none
      | [] => none
    | [] => none
  else if b < 0xF5 then
    match bs with
    | b1 :: bs1 =>
      match bs1 with
      | b2 :: bs2 =>
        match bs2 with
        | b3 :: bs3 =>
          if cont4For b b1 ∧ contByte b2 ∧ contByte b3 then
            some (Char.ofNat ((b - 0xF0) * 262144 + (b1 - 0x80) * 4096 +
              (b2 - 0x80) * 64 + (b3 - 0x80)), bs3)
          else none
        | [] => none
      | [] => none
    | [] => none
  else none

/-- Strict UTF-8 decoding (`bytes.decode('utf-8')`), fuel-indexed so that the
recursion is structural; each step consumes at least one byte, so any
`fuel > length` computes the decoding. `none` models `UnicodeDecodeError`. -/
def utf8DecodeStrictAux : Nat → List Nat → Option (List Char)
  | 0, _ => none
  | _ + 1, [] => some []
  | fuel + 1, b :: bs =>
    match utf8Step b bs with
    | some (c, rest) =>
      match utf8DecodeStrictAux fuel rest with
      | some cs => some (c :: cs)
      | none => none
    | none => none

/-- `bytes.decode('utf-8')`. -/
def utf8DecodeStrict (bs : List Nat) : Option (List Char) :=
  utf8DecodeStrictAux (bs.length + 1) bs

/-- The Unicode replacement character. -/
def replChar : Char := Char.ofNat 0xFFFD

/-- One step of the `errors='replace'` decoder: a well-formed sequence decodes
as in `utf8Step`; an ill-formed one yields U+FFFD for its maximal valid
prefix (one lead byte plus the continuation bytes that were admissible for
their position), resuming at the offending byte — CPython's behavior. -/
def utf8StepR (b : Nat) (bs : List Nat) : Char × List Nat :=
  if b < 0x80 then (Char.ofNat b, bs)
  else if b < 0xC2 then (replChar, bs)
  else if b < 0xE0 then
    match bs with
    | b1 :: bs1 =>
      if contByte b1 then (Char.ofNat ((b - 0xC0) * 64 + (b1 - 0x80)), bs1)
      else (replChar, b1 :: bs1)
    | [] => (replChar, [])
  else if b < 0xF0 then
    match bs with
    | b1 :: bs1 =>
      if cont3For b b1 then
        match bs1 with
        | b2 :: bs2 =>
          if contByte b2 then
            (Char.ofNat ((b - 0xE0) * 4096 + (b1 - 0x80) * 64 + (b2 - 0x80)), bs2)
          else (replChar, b2 :: bs2)
        | [] => (replChar, [])
      else (replChar, b1 :: bs1)
    | [] => (replChar, [])
  else if b < 0xF5 then
    match bs with
    | b1 :: bs1 =>
      if cont4For b b1 then
        match bs1 with
        | b2 :: bs2 =>
          if contByte b2 then
            match bs2 with
            | b3 :: bs3 =>
              if contByte b3 then
                (Char.ofNat ((b - 0xF0) * 262144 + (b1 - 0x80) * 4096 +
                  (b2 - 0x80) * 64 + (b3 - 0x80)), bs3)
              else (replChar, b3 :: bs3)
            | [] => (replChar, [])
          else (replChar, b2 :: bs2)
        | [] => (replChar, [])
      else (replChar, b1 :: bs1)
    | [] => (replChar, [])
  else (replChar, bs)

/-- Best-effort UTF-8 decoding (`bytes.decode('utf-8', errors='replace')`),
fuel-indexed for structural recursion; total over all byte strings. -/
def utf8DecodeReplaceAux : Nat → List Nat → List Char
  | 0, _ => []
  | _ + 1, [] => []
  | fuel + 1, b :: bs =>
    (utf8StepR b bs).1 :: utf8DecodeReplaceAux fuel (utf8StepR b bs).2

/-- `bytes.decode('utf-8', errors='replace')`. -/
def utf8DecodeReplace (bs : List Nat) : List Char :=
  utf8DecodeReplaceAux (bs.length + 1) bs

/-- Dynamically typed Python values as the metadata layer sees them: the JSON
sum type of the spec's data model plus `objref`, an opaque object reference
with no JSON representation (used to model non-serializable metadata).
Numbers are arbitrary-precision integers; IEEE-754 floats are outside the
embedding, and strings are Unicode scalar sequences (no lone surrogates). -/
inductive PyVal where
  | null : PyVal
  | bool : Bool → PyVal
  | int : Int → PyVal
  | str : String → PyVal
  | arr : List PyVal → PyVal
  | obj : List (String × PyVal) → PyVal
  | objref : Nat → PyVal

/-- Python truthiness (`if metadata:`): `None`, `False`, `0`, `""`, `[]` and
`{}` are falsy; plain objects are truthy. -/
def pyTruthy : PyVal → Bool
  | .null => false
  | .bool b => b
  | .int n => n ≠ 0
  | .str s => s ≠ ""
  | .arr xs => !xs.isEmpty
  | .obj kvs => !kvs.isEmpty
  | .objref _ => true

/-- Escape sequence `\uXXXX` with lowercase hex digits. -/
def hexEsc (n : Nat) : List Char :=
  ['\\', 'u', hexDigitChar (n / 4096 % 16), hexDigitChar (n / 256 % 16),
    hexDigitChar (n / 16 % 16), hexDigitChar (n % 16)]

/-- Per-character output of `json.encoder.py_encode_basestring_ascii`:
printable ASCII other than `"` and `\` is kept, the two-character short
escapes are used for the usual controls, and everything else becomes `\uXXXX`
(a surrogate pair for astral characters). -/
def escapeChar (c : Char) : List Char :=
  if c = '"' then ['\\', '"']
  else if c = '\\' then ['\\', '\\']
  else if c = '\x08' then ['\\', 'b']
  else if c = '\x0c' then ['\\', 'f']
  else if c = '\n' then ['\\', 'n']
  else if c = '\r' then ['\\', 'r']
  else if c = '\t' then ['\\', 't']
  else if c.toNat < 0x20 ∨ 0x7E < c.toNat then
    if c.toNat < 0x10000 then hexEsc c.toNat
    else hexEsc (0xD800 + (c.toNat - 0x10000) / 1024) ++
      hexEsc (0xDC00 + (c.toNat - 0x10000) % 1024)
  else [c]

/-- JSON string literal for `s`, ASCII-escaped. -/
def strLit (s : String) : List Char :=
  '"' :: s.data.flatMap escapeChar ++ ['"']

mutual

/-- Characters produced by `json.dumps(v, ensure_ascii=True)` (default
separators `', '` and `': '`, insertion-order keys); `none` models the
`TypeError` raised on a value with no JSON representation. -/
def dumpsV : PyVal → Option (List Char)
  | .null => some ['n', 'u', 'l', 'l']
  | .bool true => some ['t', 'r', 'u', 'e']
  | .bool false => some ['f', 'a', 'l', 's', 'e']
  | .int i => some (intChars i)
  | .str s => some (strLit s)
  | .arr [] => some ['[', ']']
  | .arr (x :: xs) =>
    match dumpsElems (x :: xs) with
    | some body => some ('[' :: body ++ [']'])
    | none => none
  | .obj [] => some ['\x7b', '\x7d']
  | .obj (kv :: kvs) =>
    match dumpsMembers (kv :: kvs) with
    | some body => some ('\x7b' :: body ++ ['\x7d'])
    | none => none
  | .objref _ => none

/-- Array elements joined by the `', '` item separator. -/
def dumpsElems : List PyVal → Option (List Char)
  | [] => some []
  | x :: xs =>
    match dumpsV x, xs with
    | some d, [] => some d
    | some d, _ :: _ =>
      match dumpsElems xs with
      | some rest => some (d ++ ',' :: ' ' :: rest)
      | none => none
    | none, _ => none

/-- Object members, each `key ': ' value`, joined by `', '`. -/
def dumpsMembers : List (String × PyVal) → Option (List Char)
  | [] => some []
  | (k, v) :: kvs =>
    match dumpsV v, kvs with
    | some d, [] => some (strLit k ++ ':' :: ' ' :: d)
    | some d, _ :: _ =>
      match dumpsMembers kvs with
      | some rest => some (strLit k ++ ':' :: ' ' :: d ++ ',' :: ' ' :: rest)
      | none => none
    | none, _ => none

end

/-- `json.dumps(v, ensure_ascii=True)` as a string. -/
def jsonDumps (v : PyVal) : Option String :=
  (dumpsV v).map String.mk

/-- Cons a decoded character onto the pending string-parse result. -/
def mapCons (c : Char) : Option (List Char × List Char) → Option (List Char × List Char)
  | some (cs, r) => some (c :: cs, r)
  | none => none

/-- Short backslash escapes accepted by `json.decoder.py_scanstring`. -/
def escUn (e : Char) : Option Char :=
  if e = '"' then some '"'
  else if e = '\\' then some '\\'
  else if e = '/' then some '/'
  else if e = 'b' then some '\x08'
  else if e = 'f' then some '\x0c'
  else if e = 'n' then some '\n'
  else if e = 'r' then some '\r'
  else if e = 't' then some '\t'
  else none

/-- Decode one backslash escape (the scanner's table plus `\uXXXX`
handling, split into the helpers below): the decoded character and the
remaining input. -/
def decodeLowSur (n : Nat) (r2 : List Char) : Option (Char × List Char) :=
  match r2 with
  | es :: us :: g1 :: g2 :: g3 :: g4 :: r3 =>
    if es = '\\' ∧ us = 'u' then
      match hexVal g1, hexVal g2, hexVal g3, hexVal g4 with
      | some a, some b, some c', some d =>
        if 0xDC00 ≤ ((a * 16 + b) * 16 + c') * 16 + d ∧
            ((a * 16 + b) * 16 + c') * 16 + d < 0xE000 then
          some (Char.ofNat (0x10000 + (n - 0xD800) * 1024 +
            (((a * 16 + b) * 16 + c') * 16 + d - 0xDC00)), r3)
        else none
      | _, _, _, _ => none
    else none
  | _ => none

/-- Dispatch on a decoded `\uXXXX` value: a high surrogate awaits its low
surrogate, a lone low surrogate is unrepresentable here, anything else is a
BMP character. -/
def decodeUVal (n : Nat) (r2 : List Char) : Option (Char × List Char) :=
  if 0xD800 ≤ n ∧ n < 0xDC00 then decodeLowSur n r2
  else if 0xDC00 ≤ n ∧ n < 0xE000 then none
  else some (Char.ofNat n, r2)

/-- The characters after a backslash: either `uXXXX` or a short escape. -/
def decodeEsc (r : List Char) : Option (Char × List Char) :=
  match r with
  | [] => none
  | e :: r1 =>
    if e = 'u' then
      match r1 with
      | h1 :: h2 :: h3 :: h4 :: r2 =>
        match hexVal h1, hexVal h2, hexVal h3, hexVal h4 with
        | some a, some b, some c', some d => decodeUVal (((a * 16 + b) * 16 + c') * 16 + d) r2
        | _, _, _, _ => none
      | _ => none
    else
      match escUn e with
      | some d => some (d, r1)
      | none => none

/-- Body of a JSON string after the opening quote, per `py_scanstring` with
`strict=True`: literal control characters below 0x20 are rejected, backslash
escapes go through `decodeEsc`. Fuel-indexed for structural recursion; one
unit of fuel per produced character, so any `fuel > length` computes the
scan. (CPython additionally accepts unpaired surrogate escapes, producing
lone-surrogate strings; those are not representable as Unicode scalar
sequences and parse to `none` here.) -/
def parseStrAux : Nat → List Char → Option (List Char × List Char)
  | 0, _ => none
  | _ + 1, [] => none
  | fuel + 1, c :: r =>
    if c = '"' then some ([], r)
    else if c = '\\' then
      (decodeEsc r).bind (fun dr => mapCons dr.1 (parseStrAux fuel dr.2))
    else if c.toNat < 0x20 then none
    else mapCons c (parseStrAux fuel r)

/-- A whole JSON string body with ample fuel. -/
def parseStr (r : List Char) : Option (List Char × List Char) :=
  parseStrAux (r.length + 1) r

/-- Value of a run of decimal digits, most significant first. -/
def digitsVal (ds : List Char) : Nat :=
  ds.foldl (fun a c => 10 * a + (c.toNat - 48)) 0

/-- Unsigned integer literal per the scanner's `NUMBER_RE`
(`(-?(?:0|[1-9]\d*))(\.\d+)?([eE][-+]?\d+)?`): no leading zeros; a following
`.`/`e`/`E` would start a float literal, which is outside the embedding and
rejected here. -/
def floatFollows : List Char → Bool
  | c :: _ => c = '.' || c = 'e' || c = 'E'
  | [] => false

/-- Unsigned integer literal: the maximal digit run, its value and the rest. -/
def parseNat (cs : List Char) : Option (Nat × List Char) :=
  if (cs.takeWhile isDig).isEmpty then none
  else if (cs.takeWhile isDig).head? = some '0' ∧ cs.takeWhile isDig ≠ ['0'] then none
  else if floatFollows (cs.dropWhile isDig) then none
  else some (digitsVal (cs.takeWhile isDig), cs.dropWhile isDig)

/-- Integer literal with optional sign. -/
def parseNum (cs : List Char) : Option (PyVal × List Char) :=
  match cs with
  | [] => none
  | c :: r =>
    if c = '-' then
      match parseNat r with
      | some (n, r2) => some (.int (-(n : Int)), r2)
      | none => none
    else
      match parseNat (c :: r) with
      | some (n, r2) => some (.int (n : Int), r2)
      | none => none

/-- One `dict` insertion: an existing key keeps its position and takes the
new value, a fresh key is appended (CPython dict semantics). -/
def insertPair : List (String × PyVal) → String × PyVal → List (String × PyVal)
  | [], kv => [kv]
  | p :: ps, kv => if p.1 = kv.1 then (p.1, kv.2) :: ps else p :: insertPair ps kv

/-- Build the `dict` the object hook returns from parsed members in order;
duplicate keys are last-write-wins. -/
def buildDict (ps : List (String × PyVal)) : List (String × PyVal) :=
  ps.foldl insertPair []

mutual

/-- One JSON value, per `json.scanner.py_make_scanner` (fuel-indexed to make
the recursion structural; `jsonLoads` supplies ample fuel). `NaN`, `Infinity`
and float literals — which CPython maps to IEEE doubles — are outside the
embedding and rejected. -/
def parseVal : Nat → List Char → Option (PyVal × List Char)
  | 0, _ => none
  | fuel + 1, cs =>
    match cs with
    | [] => none
    | c :: r =>
      if c = '"' then
        match parseStr r with
        | some (cs2, r2) => some (.str (String.mk cs2), r2)
        | none => none
      else if c = '[' then
        match skipWs r with
        | [] => none
        | c2 :: r2 =>
          if c2 = ']' then some (.arr [], r2)
          else
            match parseElems fuel (c2 :: r2) with
            | some (vs, r3) => some (.arr vs, r3)
            | none => none
      else if c = '\x7b' then
        match skipWs r with
        | [] => none
        | c2 :: r2 =>
          if c2 = '\x7d' then some (.obj [], r2)
          else
            match parseMembers fuel (c2 :: r2) with
            | some (ps, r3) => some (.obj (buildDict ps), r3)
            | none => none
      else if c = 'n' then
        match r with
        | c1 :: c2 :: c3 :: r4 => if c1 = 'u' ∧ c2 = 'l' ∧ c3 = 'l' then some (.null, r4) else none
        | _ => none
      else if c = 't' then
        match r with
        | c1 :: c2 :: c3 :: r4 => if c1 = 'r' ∧ c2 = 'u' ∧ c3 = 'e' then some (.bool true, r4) else none
        | _ => none
      else if c = 'f' then
        match r with
        | c1 :: c2 :: c3 :: c4 :: r4 =>
          if c1 = 'a' ∧ c2 = 'l' ∧ c3 = 's' ∧ c4 = 'e' then some (.bool false, r4) else none
        | _ => none
      else parseNum (c :: r)

/-- Elements of a non-empty array up to and including the closing `]`,
whitespace-tolerant as `JSONArray` is. -/
def parseElems : Nat → List Char → Option (List PyVal × List Char)
  | 0, _ => none
  | fuel + 1, cs =>
    match parseVal fuel cs with
    | some (v, r) =>
      match skipWs r with
      | [] => none
      | c :: r2 =>
        if c = ',' then
          match parseElems fuel (skipWs r2) with
          | some (vs, r3) => some (v :: vs, r3)
          | none => none
        else if c = ']' then some ([v], r2)
        else none
    | none => none

/-- Members of a non-empty object up to and including the closing brace,
whitespace-tolerant as `JSONObject` is. -/
def parseMembers : Nat → List Char → Option (List (String × PyVal) × List Char)
  | 0, _ => none
  | fuel + 1, cs =>
    match cs with
    | [] => none
    | c :: r =>
      if c = '"' then
        match parseStr r with
        | some (kcs, r1) =>
          match skipWs r1 with
          | [] => none
          | c2 :: r2 =>
            if c2 = ':' then
              match parseVal fuel (skipWs r2) with
              | some (v, r3) =>
                match skipWs r3 with
                | [] => none
                | c3 :: r4 =>
                  if c3 = ',' then
                    match parseMembers fuel (skipWs r4) with
                    | some (ps, r5) => some ((String.mk kcs, v) :: ps, r5)
                    | none => none
                  else if c3 = '\x7d' then some ([(String.mk kcs, v)], r4)
                  else none
              | none => none
            else none
        | none => none
      else none

end

/-- `json.loads`: skip leading whitespace, scan one value, require only
whitespace after it (`JSONDecodeError` otherwise, modelled as `none`). -/
def jsonLoads (s : String) : Option PyVal :=
  match parseVal ((skipWs s.data).length + 1) (skipWs s.data) with
  | some (v, r) => if skipWs r = [] then some v else none
  | none => none

/-- Error taxonomy of the spec, mapped from the exceptions the source raises:
`notOpen` and `modeViolation` are the two `RuntimeError` guards, `notFound`
is `FileNotFoundError`, `notFoundInArchive` is `KeyError`, `serialization`
is the `TypeError`/`ValueError` out of `json.dumps`. -/
inductive ZipErr where
  | notOpen : ZipErr
  | invalidArgument : ZipErr
  | modeViolation : ZipErr
  | notFound : ZipErr
  | notFoundInArchive : ZipErr
  | serialization : ZipErr
deriving DecidableEq

/-- `_encode_metadata`: `json.dumps(metadata, ensure_ascii=True).encode('utf-8')`. -/
def encodeMetadata (m : PyVal) : Except ZipErr (List Nat) :=
  match jsonDumps m with
  | some s => .ok (utf8Encode s)
  | none => .error .serialization

/-- `_decode_metadata`: empty comments decode to the empty mapping; otherwise
`json.loads(comment.decode('utf-8'))`, and on `UnicodeDecodeError` or
`JSONDecodeError` the legacy fallback
`{"comment": comment.decode('utf-8', errors='replace')}`. Total: it is a
plain function into `PyVal`, never an error. -/
def decodeMetadata (bs : List Nat) : PyVal :=
  if bs.isEmpty then .obj []
  else
    match utf8DecodeStrict bs with
    | some cs =>
      match jsonLoads (String.mk cs) with
      | some v => v
      | none => .obj [("comment", .str (String.mk (utf8DecodeReplace bs)))]
    | none => .obj [("comment", .str (String.mk (utf8DecodeReplace bs)))]

/-- The happy path of `_decode_metadata` as one partial function: strict
UTF-8 decoding followed by JSON parsing. `none` on an input means the bytes
are not the UTF-8 encoding of (parseable) JSON text. -/
def jsonOfBytes (bs : List Nat) : Option PyVal :=
  match utf8DecodeStrict bs with
  | some cs => jsonLoads (String.mk cs)
  | none => none

/-- Archive open mode: `'w'` or `'r'` (any other string is rejected by the
constructor before any I/O). -/
inductive ZMode where
  | w : ZMode
  | r : ZMode
deriving DecidableEq

/-- One `ZipInfo` plus the entry's stored bytes: name, raw content, comment
(defaults to the empty byte string when no metadata is attached). The
container mode is `ZIP_STORED`, so the compressed size equals the content
size. -/
structure ZipEntry where
  filename : String
  data : List Nat
  comment : List Nat
deriving DecidableEq

/-- The underlying `zipfile.ZipFile` container state: the (append-only)
`filelist` and the archive-level comment. -/
structure ZipState where
  filelist : List ZipEntry
  comment : List Nat
deriving DecidableEq

/-- A `ZipArchive` handle: mode fixed at construction, `isOpen` tracks the
context-manager lifecycle (`archive is not None`), and the container state. -/
structure ZipArchive where
  mode : ZMode
  isOpen : Bool
  st : ZipState
deriving DecidableEq

/-- The local filesystem, mapping a path to its content when the path exists
(`os.path.exists` / `open(filepath, 'rb').read()`). -/
def FS : Type := String → Option (List Nat)

/-- `os.path.basename`: the part after the last `/`. -/
def basename (s : String) : String :=
  String.mk ((s.data.reverse.takeWhile (fun c => c ≠ '/')).reverse)

/-- `ZipFile.getinfo` via `NameToInfo`: the most recently written entry with
the given name, if any. -/
def getinfo (st : ZipState) (name : String) : Option ZipEntry :=
  st.filelist.reverse.find? (fun e => e.filename == name)

/-- `ZipArchive.add_file(filepath, metadata, arcname)`. Guards in source
order: the `requires_open_archive` decorator, the write-mode check, the
`os.path.exists` check; then the name is `arcname or os.path.basename(
filepath)` (an empty-string `arcname` is falsy), the metadata is encoded
only when truthy (`if metadata:`), and `writestr` appends the new entry to
`filelist` — duplicate names are appended, not replaced. An error leaves
the state untouched. -/
def add_file (fs : FS) (z : ZipArchive) (filepath : String) (metadata : Option PyVal)
    (arcname : Option String) : Option ZipErr × ZipArchive :=
  if z.isOpen = false then (some .notOpen, z)
  else if z.mode ≠ ZMode.w then (some .modeViolation, z)
  else
    match fs filepath with
    | none => (some .notFound, z)
    | some content =>
      let nameInArchive :=
        match arcname with
        | some a => if a = "" then basename filepath else a
        | none => basename filepath
      let commentE : Except ZipErr (List Nat) :=
        match metadata with
        | some m => if pyTruthy m then encodeMetadata m else .ok []
        | none => .ok []
      match commentE with
      | .error e => (some e, z)
      | .ok cbytes =>
        (none, { z with st := { z.st with
          filelist := z.st.filelist ++
            [{ filename := nameInArchive, data := content, comment := cbytes }] } })

/-- `ZipArchive.set_archive_metadata`: open and write-mode guards, then the
encoded metadata replaces the container comment. -/
def set_archive_metadata (z : ZipArchive) (m : PyVal) : Option ZipErr × ZipArchive :=
  if z.isOpen = false then (some .notOpen, z)
  else if z.mode ≠ ZMode.w then (some .modeViolation, z)
  else
    match encodeMetadata m with
    | .error e => (some e, z)
    | .ok bs => (none, { z with st := { z.st with comment := bs } })

/-- `ZipArchive.get_archive_metadata`: decode the container comment (no mode
check in the source). -/
def get_archive_metadata (z : ZipArchive) : Except ZipErr PyVal :=
  if z.isOpen = false then .error .notOpen
  else .ok (decodeMetadata z.st.comment)

/-- `ZipArchive.get_file_metadata`: normalize to the basename, `getinfo`,
decode the entry comment; a missing entry is the `KeyError` re-raised as
"File not found in archive". -/
def get_file_metadata (z : ZipArchive) (filename : String) : Except ZipErr PyVal :=
  if z.isOpen = false then .error .notOpen
  else
    match getinfo z.st (basename filename) with
    | some info => .ok (decodeMetadata info.comment)
    | none => .error .notFoundInArchive

/-- One record of `list_contents`. -/
structure ContentsEntry where
  filename : String
  size : Nat
  compressed_size : Nat
  metadata : PyVal

/-- `ZipArchive.list_contents`: one record per `filelist` entry, in container
order (no mode check in the source). -/
def list_contents (z : ZipArchive) : Except ZipErr (List ContentsEntry) :=
  if z.isOpen = false then .error .notOpen
  else .ok (z.st.filelist.map fun info =>
    { filename := info.filename, size := info.data.length,
      compressed_size := info.data.length, metadata := decodeMetadata info.comment })

mutual

/-- Deep key-uniqueness: every object node of the value has pairwise distinct
keys. Every value arising from actual Python dicts satisfies this. -/
def nodupV : PyVal → Bool
  | .null => true
  | .bool _ => true
  | .int _ => true
  | .str _ => true
  | .arr xs => nodupL xs
  | .obj kvs => decide (kvs.map Prod.fst).Nodup && nodupO kvs
  | .objref _ => true

/-- Deep key-uniqueness for array elements. -/
def nodupL : List PyVal → Bool
  | [] => true
  | x :: xs => nodupV x && nodupL xs

/-- Deep key-uniqueness for object member values. -/
def nodupO : List (String × PyVal) → Bool
  | [] => true
  | kv :: kvs => nodupV kv.2 && nodupO kvs

end

mutual

/-- Fuel bound for `parseVal` on the serialization of a value. -/
def sizeV : PyVal → Nat
  | .arr xs => 1 + sizeL xs
  | .obj kvs => 1 + sizeO kvs
  | _ => 1

/-- Fuel bound for `parseElems` on serialized elements. -/
def sizeL : List PyVal → Nat
  | [] => 0
  | x :: xs => 1 + sizeV x + sizeL xs

/-- Fuel bound for `parseMembers` on serialized members. -/
def sizeO : List (String × PyVal) → Nat
  | [] => 0
  | kv :: kvs => 1 + sizeV kv.2 + sizeO kvs

end

/-! Basic list and character lemmas. -/

/-- A boundary after which the number scanner stops: end of input, or a
character that neither extends the digit run nor starts a fraction/exponent.
Every recursive position of the grammar (end of text, `','`, `']'`, the
closing brace) satisfies it. -/
def numBoundary (r : List Char) : Prop :=
  match r with
  | [] => True
  | c :: _ => isDig c = false ∧ c ≠ '.' ∧ c ≠ 'e' ∧ c ≠ 'E'

theorem takeWhile_append_all {p : Char → Bool} (l r : List Char)
    (h : ∀ c ∈ l, p c = true) : List.takeWhile p (l ++ r) = l ++ List.takeWhile p r := by
  induction l with
  | nil => simp
  | cons c t ih =>
    simp only [List.cons_append, List.takeWhile_cons, h c (List.mem_cons_self c t)]
    simp only [if_true]
    rw [ih (fun x hx => h x (List.mem_cons_of_mem _ hx))]

theorem dropWhile_append_all {p : Char → Bool} (l r : List Char)
    (h : ∀ c ∈ l, p c = true) : List.dropWhile p (l ++ r) = List.dropWhile p r := by
  induction l with
  | nil => simp
  | cons c t ih =>
    simp only [List.cons_append, List.dropWhile_cons, h c (List.mem_cons_self c t)]
    simp only [if_true]
    exact ih (fun x hx => h x (List.mem_cons_of_mem _ hx))

theorem skipWs_nil : skipWs [] = [] := rfl

theorem skipWs_cons_not_ws {c : Char} (l : List Char) (h : wsChar c = false) :
    skipWs (c :: l) = c :: l := by
  simp [skipWs, List.dropWhile_cons, h]

theorem skipWs_cons_ws {c : Char} (l : List Char) (h : wsChar c = true) :
    skipWs (c :: l) = skipWs l := by
  simp [skipWs, List.dropWhile_cons, h]

theorem isDig_char_facts {c : Char} (h : isDig c = true) :
    wsChar c = false ∧ c ≠ ']' ∧ c ≠ '\x7d' ∧ c ≠ '-' ∧ c ≠ '"' := by
  simp only [isDig, Bool.and_eq_true, decide_eq_true_eq] at h
  refine ⟨?_, ?_, ?_, ?_, ?_⟩
  · simp only [wsChar, Bool.or_eq_false_iff, decide_eq_false_iff_not]
    refine ⟨⟨⟨?_, ?_⟩, ?_⟩, ?_⟩ <;> (rintro rfl; revert h; decide)
  all_goals (rintro rfl; revert h; decide)

theorem digit_char_facts : ∀ n < 10, (Char.ofNat (48 + n)).toNat = 48 + n ∧
    isDig (Char.ofNat (48 + n)) = true ∧ (Char.ofNat (48 + n) = '0' ↔ n = 0) := by
  decide

theorem digitsVal_append_one (ds : List Char) (c : Char) :
    digitsVal (ds ++ [c]) = 10 * digitsVal ds + (c.toNat - 48) := by
  simp [digitsVal, List.foldl_append]

theorem natChars_facts : ∀ fuel n, n < fuel →
    (natChars fuel n ≠ [] ∧ (∀ c ∈ natChars fuel n, isDig c = true) ∧
      digitsVal (natChars fuel n) = n) := by
  intro fuel
  induction fuel with
  | zero => intro n hn; omega
  | succ f ih =>
    intro n hn
    by_cases h10 : n < 10
    · refine ⟨by simp [natChars, h10], ?_, ?_⟩
      · intro c hc
        simp only [natChars, if_pos h10, List.mem_singleton] at hc
        subst hc
        exact (digit_char_facts n h10).2.1
      · simp only [natChars, if_pos h10, digitsVal, List.foldl]
        rw [(digit_char_facts n h10).1]
        omega
    · have hdiv : n / 10 < f := by omega
      obtain ⟨hne, hdig, hval⟩ := ih (n / 10) hdiv
      have hm : n % 10 < 10 := by omega
      refine ⟨?_, ?_, ?_⟩
      · simp [natChars, h10]
      · intro c hc
        simp only [natChars, if_neg h10, List.mem_append, List.mem_singleton] at hc
        rcases hc with hc | hc
        · exact hdig c hc
        · subst hc; exact (digit_char_facts _ hm).2.1
      · simp only [natChars, if_neg h10]
        rw [digitsVal_append_one, hval, (digit_char_facts _ hm).1]
        omega

theorem natChars_head_ne_zero : ∀ fuel n, n < fuel → n ≠ 0 →
    ∀ c t, natChars fuel n = c :: t → c ≠ '0' := by
  intro fuel
  induction fuel with
  | zero => intro n hn; omega
  | succ f ih =>
    intro n hn hn0 c t hct
    by_cases h10 : n < 10
    · simp only [natChars, if_pos h10, List.cons.injEq] at hct
      rw [← hct.1]
      intro h0
      have := (digit_char_facts n h10).2.2.mp h0
      exact hn0 this
    · have hdiv : n / 10 < f := by omega
      have hne := (natChars_facts f (n / 10) hdiv).1
      obtain ⟨c', t', hct'⟩ := List.exists_cons_of_ne_nil hne
      simp only [natChars, if_neg h10, hct', List.cons_append, List.cons.injEq] at hct
      rw [← hct.1]
      exact ih (n / 10) hdiv (by omega) c' t' hct'

theorem natChars_zero : natChars 1 0 = ['0'] := by decide

theorem restTakeDrop {rest : List Char} (hb : numBoundary rest) :
    List.takeWhile isDig rest = [] ∧ List.dropWhile isDig rest = rest := by
  cases rest with
  | nil => simp
  | cons c t =>
    obtain ⟨hd, _, _, _⟩ := hb
    simp [List.takeWhile_cons, List.dropWhile_cons, hd]

theorem parseNat_natChars (n : Nat) (rest : List Char) (hb : numBoundary rest) :
    parseNat (natChars (n + 1) n ++ rest) = some (n, rest) := by
  obtain ⟨hne, hdig, hval⟩ := natChars_facts (n + 1) n (Nat.lt_succ_self n)
  obtain ⟨htw, hdw⟩ := restTakeDrop hb
  have htake : List.takeWhile isDig (natChars (n + 1) n ++ rest) = natChars (n + 1) n := by
    rw [takeWhile_append_all _ _ hdig, htw, List.append_nil]
  have hdrop : List.dropWhile isDig (natChars (n + 1) n ++ rest) = rest := by
    rw [dropWhile_append_all _ _ hdig, hdw]
  have hlead : ¬((natChars (n + 1) n).head? = some '0' ∧ natChars (n + 1) n ≠ ['0']) := by
    by_cases h0 : n = 0
    · subst h0
      rw [natChars_zero]
      simp
    · obtain ⟨c, t, hct⟩ := List.exists_cons_of_ne_nil hne
      have hc0 := natChars_head_ne_zero (n + 1) n (Nat.lt_succ_self n) h0 c t hct
      rw [hct]
      simp [hc0]
  have hff : floatFollows rest = false := by
    cases rest with
    | nil => rfl
    | cons c t =>
      obtain ⟨_, h1, h2, h3⟩ := hb
      simp [floatFollows, h1, h2, h3]
  unfold parseNat
  rw [htake, hdrop]
  rw [if_neg (by simp [hne]), if_neg hlead, hff, if_neg (by simp), hval]

theorem parseNum_intChars (i : Int) (rest : List Char) (hb : numBoundary rest) :
    parseNum (intChars i ++ rest) = some (.int i, rest) := by
  by_cases hneg : i < 0
  · unfold intChars
    rw [if_pos hneg]
    show parseNum ('-' :: (natChars (i.natAbs + 1) i.natAbs ++ rest)) = _
    simp only [parseNum, if_pos rfl, parseNat_natChars _ _ hb]
    have habs : (-(i.natAbs : Int)) = i := by
      rw [Int.ofNat_natAbs_of_nonpos (by omega)]
      ring
    rw [habs]
    simp
  · unfold intChars
    rw [if_neg hneg]
    obtain ⟨hne, hdig, _⟩ := natChars_facts (i.toNat + 1) i.toNat (Nat.lt_succ_self _)
    obtain ⟨c, t, hct⟩ := List.exists_cons_of_ne_nil hne
    have hcdig : isDig c = true := hdig c (by rw [hct]; exact List.mem_cons_self c t)
    have hcm : c ≠ '-' := (isDig_char_facts hcdig).2.2.2.1
    have hpn : parseNat (c :: (t ++ rest)) = some (i.toNat, rest) := by
      have := parseNat_natChars i.toNat rest hb
      rw [hct] at this
      simpa using this
    rw [hct]
    show parseNum (c :: (t ++ rest)) = _
    simp only [parseNum, if_neg hcm, hpn]
    rw [Int.toNat_of_nonneg (by omega)]

/-! String escaping round trip. -/

theorem char_valid_ranges (c : Char) :
    c.toNat < 0xD800 ∨ (0xDFFF < c.toNat ∧ c.toNat < 0x110000) := by
  rcases c with ⟨v, h⟩
  rcases h with h | h
  · exact Or.inl h
  · exact Or.inr h

theorem hexVal_hexDigitChar : ∀ n < 16, hexVal (hexDigitChar n) = some n := by
  decide


theorem decodeEsc_hexDigits (n : Nat) (hn : n < 0x10000) (l : List Char) :
    decodeEsc ('u' :: hexDigitChar (n / 4096 % 16) :: hexDigitChar (n / 256 % 16) ::
      hexDigitChar (n / 16 % 16) :: hexDigitChar (n % 16) :: l) = decodeUVal n l := by
  have e1 := hexVal_hexDigitChar (n / 4096 % 16) (Nat.mod_lt _ (by norm_num))
  have e2 := hexVal_hexDigitChar (n / 256 % 16) (Nat.mod_lt _ (by norm_num))
  have e3 := hexVal_hexDigitChar (n / 16 % 16) (Nat.mod_lt _ (by norm_num))
  have e4 := hexVal_hexDigitChar (n % 16) (Nat.mod_lt _ (by norm_num))
  have hrec : ((n / 4096 % 16 * 16 + n / 256 % 16) * 16 + n / 16 % 16) * 16 + n % 16 = n := by
    omega
  unfold decodeEsc
  simp only [reduceIte, e1, e2, e3, e4, hrec]

theorem decodeLowSur_hexDigits (n m : Nat) (hm' : m < 0x10000)
    (hm : 0xDC00 ≤ m ∧ m < 0xE000) (l : List Char) :
    decodeLowSur n ('\\' :: 'u' :: hexDigitChar (m / 4096 % 16) :: hexDigitChar (m / 256 % 16) ::
      hexDigitChar (m / 16 % 16) :: hexDigitChar (m % 16) :: l) =
      some (Char.ofNat (0x10000 + (n - 0xD800) * 1024 + (m - 0xDC00)), l) := by
  have e1 := hexVal_hexDigitChar (m / 4096 % 16) (Nat.mod_lt _ (by norm_num))
  have e2 := hexVal_hexDigitChar (m / 256 % 16) (Nat.mod_lt _ (by norm_num))
  have e3 := hexVal_hexDigitChar (m / 16 % 16) (Nat.mod_lt _ (by norm_num))
  have e4 := hexVal_hexDigitChar (m % 16) (Nat.mod_lt _ (by norm_num))
  have hrec : ((m / 4096 % 16 * 16 + m / 256 % 16) * 16 + m / 16 % 16) * 16 + m % 16 = m := by
    omega
  unfold decodeLowSur
  simp only [reduceIte, e1, e2, e3, e4, hrec, and_self]
  rw [if_pos hm]

theorem parseStrAux_escBmp (c : Char) (l : List Char) (fuel : Nat)
    (h9 : c.toNat < 0x10000) :
    parseStrAux (fuel + 1) (hexEsc c.toNat ++ l) = mapCons c (parseStrAux fuel l) := by
  have hval := char_valid_ranges c
  show parseStrAux (fuel + 1) ('\\' :: ('u' :: hexDigitChar (c.toNat / 4096 % 16) ::
    hexDigitChar (c.toNat / 256 % 16) :: hexDigitChar (c.toNat / 16 % 16) ::
    hexDigitChar (c.toNat % 16) :: l)) = _
  conv => lhs; rw [parseStrAux]
  rw [if_neg (by decide), if_pos rfl, decodeEsc_hexDigits c.toNat h9]
  unfold decodeUVal
  rw [if_neg (by omega), if_neg (by omega), Char.ofNat_toNat]
  rfl

theorem parseStrAux_escAstral (c : Char) (l : List Char) (fuel : Nat)
    (h9 : ¬ c.toNat < 0x10000) :
    parseStrAux (fuel + 1) ((hexEsc (0xD800 + (c.toNat - 0x10000) / 1024) ++
      hexEsc (0xDC00 + (c.toNat - 0x10000) % 1024)) ++ l) = mapCons c (parseStrAux fuel l) := by
  have hval := char_valid_ranges c
  have hge : 0x10000 ≤ c.toNat := by omega
  have hlt : c.toNat < 0x110000 := by omega
  show parseStrAux (fuel + 1) ('\\' :: ('u' ::
    hexDigitChar ((0xD800 + (c.toNat - 0x10000) / 1024) / 4096 % 16) ::
    hexDigitChar ((0xD800 + (c.toNat - 0x10000) / 1024) / 256 % 16) ::
    hexDigitChar ((0xD800 + (c.toNat - 0x10000) / 1024) / 16 % 16) ::
    hexDigitChar ((0xD800 + (c.toNat - 0x10000) / 1024) % 16) ::
    (hexEsc (0xDC00 + (c.toNat - 0x10000) % 1024) ++ l))) = _
  conv => lhs; rw [parseStrAux]
  rw [if_neg (by decide), if_pos rfl, decodeEsc_hexDigits _ (by omega)]
  unfold decodeUVal
  rw [if_pos (by omega)]
  show (decodeLowSur (0xD800 + (c.toNat - 0x10000) / 1024) ('\\' :: 'u' ::
    hexDigitChar ((0xDC00 + (c.toNat - 0x10000) % 1024) / 4096 % 16) ::
    hexDigitChar ((0xDC00 + (c.toNat - 0x10000) % 1024) / 256 % 16) ::
    hexDigitChar ((0xDC00 + (c.toNat - 0x10000) % 1024) / 16 % 16) ::
    hexDigitChar ((0xDC00 + (c.toNat - 0x10000) % 1024) % 16) :: l)).bind
      (fun dr => mapCons dr.1 (parseStrAux fuel dr.2)) = _
  rw [decodeLowSur_hexDigits _ _ (by omega) (by omega)]
  have hcomb : 0x10000 + (0xD800 + (c.toNat - 0x10000) / 1024 - 0xD800) * 1024 +
      (0xDC00 + (c.toNat - 0x10000) % 1024 - 0xDC00) = c.toNat := by
    omega
  rw [hcomb, Char.ofNat_toNat]
  rfl

theorem parseStrAux_escShort (c d : Char) (l : List Char) (fuel : Nat)
    (h : decodeEsc (d :: l) = some (c, l)) :
    parseStrAux (fuel + 1) ('\\' :: d :: l) = mapCons c (parseStrAux fuel l) := by
  conv => lhs; rw [parseStrAux]
  rw [if_neg (by decide), if_pos rfl, h]
  rfl

theorem parseStrAux_escapeChar (c : Char) (l : List Char) (fuel : Nat) :
    parseStrAux (fuel + 1) (escapeChar c ++ l) = mapCons c (parseStrAux fuel l) := by
  unfold escapeChar
  split_ifs with h1 h2 h3 h4 h5 h6 h7 h8 h9
  · subst h1; exact parseStrAux_escShort _ _ _ _ rfl
  · subst h2; exact parseStrAux_escShort _ _ _ _ rfl
  · subst h3; exact parseStrAux_escShort _ _ _ _ rfl
  · subst h4; exact parseStrAux_escShort _ _ _ _ rfl
  · subst h5; exact parseStrAux_escShort _ _ _ _ rfl
  · subst h6; exact parseStrAux_escShort _ _ _ _ rfl
  · subst h7; exact parseStrAux_escShort _ _ _ _ rfl
  · exact parseStrAux_escBmp c l fuel h9
  · exact parseStrAux_escAstral c l fuel h9
  · -- printable ASCII, kept literally
    show parseStrAux (fuel + 1) (c :: l) = _
    conv => lhs; rw [parseStrAux]
    rw [if_neg h1, if_neg h2, if_neg (by omega)]

theorem escapeChar_length_pos (c : Char) : 0 < (escapeChar c).length := by
  unfold escapeChar
  split_ifs <;> simp [hexEsc]

theorem flatMap_escape_length (cs : List Char) :
    cs.length ≤ (cs.flatMap escapeChar).length := by
  induction cs with
  | nil => simp
  | cons c t ih =>
    rw [List.flatMap_cons, List.length_append, List.length_cons]
    have := escapeChar_length_pos c
    omega

theorem parseStrAux_flatMap (cs : List Char) :
    ∀ fuel rest, cs.length < fuel →
      parseStrAux fuel (cs.flatMap escapeChar ++ '"' :: rest) = some (cs, rest) := by
  induction cs with
  | nil =>
    intro fuel rest hf
    cases fuel with
    | zero => omega
    | succ f =>
      show parseStrAux (f + 1) ('"' :: rest) = _
      conv => lhs; rw [parseStrAux]
      rw [if_pos rfl]
  | cons c t ih =>
    intro fuel rest hf
    cases fuel with
    | zero => omega
    | succ f =>
      rw [List.flatMap_cons, List.append_assoc, parseStrAux_escapeChar,
        ih f rest (by simpa using Nat.lt_of_succ_lt_succ hf)]
      rfl

theorem parseStr_escaped (cs rest : List Char) :
    parseStr (cs.flatMap escapeChar ++ '"' :: rest) = some (cs, rest) := by
  unfold parseStr
  apply parseStrAux_flatMap
  have := flatMap_escape_length cs
  rw [List.length_append, List.length_cons]
  omega

/-! Induction principle for the nested inductive `PyVal`, and dictionary
construction facts. -/

def pyvalRec {P : PyVal → Prop} (h0 : P .null) (h1 : ∀ b, P (.bool b)) (h2 : ∀ n, P (.int n))
    (h3 : ∀ s, P (.str s)) (h4 : ∀ xs, (∀ x ∈ xs, P x) → P (.arr xs))
    (h5 : ∀ kvs, (∀ kv ∈ kvs, P kv.2) → P (.obj kvs)) (h6 : ∀ n, P (.objref n)) :
    ∀ v, P v
  | .null => h0
  | .bool b => h1 b
  | .int n => h2 n
  | .str s => h3 s
  | .arr xs => h4 xs (fun x hx => pyvalRec h0 h1 h2 h3 h4 h5 h6 x)
  | .obj kvs => h5 kvs (fun kv hkv => pyvalRec h0 h1 h2 h3 h4 h5 h6 kv.2)
  | .objref n => h6 n
termination_by v => sizeOf v
decreasing_by
  · have := List.sizeOf_lt_of_mem hx
    simp only [PyVal.arr.sizeOf_spec]
    omega
  · have h' := List.sizeOf_lt_of_mem hkv
    have h'' : sizeOf kv.2 < sizeOf kv := by
      cases kv with
      | mk a b => simp only [Prod.mk.sizeOf_spec]; omega
    simp only [PyVal.obj.sizeOf_spec]
    omega

theorem insertPair_of_not_mem (acc : List (String × PyVal)) (kv : String × PyVal)
    (h : ∀ p ∈ acc, p.1 ≠ kv.1) : insertPair acc kv = acc ++ [kv] := by
  induction acc with
  | nil => rfl
  | cons p ps ih =>
    unfold insertPair
    rw [if_neg (h p (List.mem_cons_self p ps))]
    rw [ih (fun q hq => h q (List.mem_cons_of_mem _ hq))]
    rfl

theorem foldl_insertPair (ps : List (String × PyVal)) :
    ∀ acc, ((acc ++ ps).map Prod.fst).Nodup → ps.foldl insertPair acc = acc ++ ps := by
  induction ps with
  | nil => intro acc _; simp
  | cons kv t ih =>
    intro acc h
    rw [List.foldl_cons]
    have hnm : ∀ p ∈ acc, p.1 ≠ kv.1 := by
      intro p hp heq
      rw [List.map_append] at h
      obtain ⟨_, _, hdisj⟩ := List.nodup_append.mp h
      exact hdisj (List.mem_map_of_mem Prod.fst hp)
        (by rw [heq]; exact List.mem_cons_self _ _)
    rw [insertPair_of_not_mem _ _ hnm]
    rw [ih (acc ++ [kv]) (by simpa [List.append_assoc] using h)]
    simp

theorem buildDict_nodup (kvs : List (String × PyVal)) (h : (kvs.map Prod.fst).Nodup) :
    buildDict kvs = kvs := by
  unfold buildDict
  simpa using foldl_insertPair kvs [] (by simpa using h)

/-! ASCII facts about the serializer output. -/

theorem hexDigitChar_ascii : ∀ n < 16, (hexDigitChar n).toNat < 128 := by decide

theorem hexEsc_ascii (n : Nat) : ∀ x ∈ hexEsc n, x.toNat < 128 := by
  intro x hx
  simp only [hexEsc, List.mem_cons, List.not_mem_nil, or_false] at hx
  rcases hx with rfl | rfl | rfl | rfl | rfl | rfl
  · decide
  · decide
  all_goals exact hexDigitChar_ascii _ (Nat.mod_lt _ (by norm_num))

theorem escapeChar_ascii (c : Char) : ∀ x ∈ escapeChar c, x.toNat < 128 := by
  intro x hx
  unfold escapeChar at hx
  split_ifs at hx with h1 h2 h3 h4 h5 h6 h7 h8 h9
  · simp only [List.mem_cons, List.not_mem_nil, or_false] at hx
    rcases hx with rfl | rfl <;> decide
  · simp only [List.mem_cons, List.not_mem_nil, or_false] at hx
    rcases hx with rfl | rfl <;> decide
  · simp only [List.mem_cons, List.not_mem_nil, or_false] at hx
    rcases hx with rfl | rfl <;> decide
  · simp only [List.mem_cons, List.not_mem_nil, or_false] at hx
    rcases hx with rfl | rfl <;> decide
  · simp only [List.mem_cons, List.not_mem_nil, or_false] at hx
    rcases hx with rfl | rfl <;> decide
  · simp only [List.mem_cons, List.not_mem_nil, or_false] at hx
    rcases hx with rfl | rfl <;> decide
  · simp only [List.mem_cons, List.not_mem_nil, or_false] at hx
    rcases hx with rfl | rfl <;> decide
  · exact hexEsc_ascii _ x hx
  · simp only [List.mem_append] at hx
    rcases hx with hx | hx <;> exact hexEsc_ascii _ x hx
  · simp only [List.mem_singleton] at hx
    subst hx; omega

theorem strLit_ascii (s : String) : ∀ x ∈ strLit s, x.toNat < 128 := by
  intro x hx
  simp only [strLit, List.mem_cons, List.mem_append, List.mem_flatMap,
    List.mem_singleton, List.not_mem_nil, or_false] at hx
  rcases hx with (rfl | ⟨c, _, hc⟩) | rfl
  · decide
  · exact escapeChar_ascii c x hc
  · decide

theorem natChars_ascii (fuel n : Nat) (h : n < fuel) : ∀ x ∈ natChars fuel n, x.toNat < 128 := by
  intro x hx
  have := (natChars_facts fuel n h).2.1 x hx
  simp only [isDig, Bool.and_eq_true, decide_eq_true_eq] at this
  omega

theorem intChars_ascii (i : Int) : ∀ x ∈ intChars i, x.toNat < 128 := by
  intro x hx
  unfold intChars at hx
  split_ifs at hx with h
  · simp only [List.mem_cons] at hx
    rcases hx with rfl | hx
    · decide
    · exact natChars_ascii _ _ (Nat.lt_succ_self _) x hx
  · exact natChars_ascii _ _ (Nat.lt_succ_self _) x hx

/-! Leading characters of serializer output. -/

theorem startDig_ne (c : Char) (hc : c = '-' ∨ isDig c = true) :
    ¬c = '"' ∧ ¬c = '[' ∧ ¬c = '\x7b' ∧ ¬c = 'n' ∧ ¬c = 't' ∧ ¬c = 'f' := by
  rcases hc with rfl | hd
  · refine ⟨?_, ?_, ?_, ?_, ?_, ?_⟩ <;> decide
  · refine ⟨?_, ?_, ?_, ?_, ?_, ?_⟩ <;> (rintro rfl; revert hd; decide)

theorem intChars_cons (i : Int) : ∃ c t, intChars i = c :: t ∧ (c = '-' ∨ isDig c = true) := by
  unfold intChars
  split_ifs with h
  · exact ⟨'-', _, rfl, Or.inl rfl⟩
  · obtain ⟨hne, hdig, _⟩ := natChars_facts (i.toNat + 1) i.toNat (Nat.lt_succ_self _)
    obtain ⟨c, t, hct⟩ := List.exists_cons_of_ne_nil hne
    exact ⟨c, t, hct, Or.inr (hdig c (by rw [hct]; exact List.mem_cons_self c t))⟩

theorem dumpsV_head (v : PyVal) (out : List Char) (h : dumpsV v = some out) :
    ∃ c t, out = c :: t ∧ wsChar c = false ∧ c ≠ ']' ∧ c ≠ '\x7d' := by
  cases v with
  | null =>
    rw [show dumpsV .null = some ['n', 'u', 'l', 'l'] from rfl] at h
    injection h with h
    exact ⟨'n', _, h.symm, by decide, by decide, by decide⟩
  | bool b =>
    cases b with
    | true =>
      rw [show dumpsV (.bool true) = some ['t', 'r', 'u', 'e'] from rfl] at h
      injection h with h
      exact ⟨'t', _, h.symm, by decide, by decide, by decide⟩
    | false =>
      rw [show dumpsV (.bool false) = some ['f', 'a', 'l', 's', 'e'] from rfl] at h
      injection h with h
      exact ⟨'f', _, h.symm, by decide, by decide, by decide⟩
  | int i =>
    rw [show dumpsV (.int i) = some (intChars i) from rfl] at h
    injection h with h
    obtain ⟨c, t, hct, hc⟩ := intChars_cons i
    refine ⟨c, t, by rw [← h, hct], ?_, ?_, ?_⟩
    · rcases hc with rfl | hd
      · decide
      · exact (isDig_char_facts hd).1
    · rcases hc with rfl | hd
      · decide
      · exact (isDig_char_facts hd).2.1
    · rcases hc with rfl | hd
      · decide
      · exact (isDig_char_facts hd).2.2.1
  | str s =>
    rw [show dumpsV (.str s) = some (strLit s) from rfl] at h
    injection h with h
    exact ⟨'"', _, by rw [← h]; rfl, by decide, by decide, by decide⟩
  | arr xs =>
    cases xs with
    | nil =>
      rw [show dumpsV (.arr []) = some ['[', ']'] from rfl] at h
      injection h with h
      exact ⟨'[', _, h.symm, by decide, by decide, by decide⟩
    | cons x xs =>
      rw [show dumpsV (.arr (x :: xs)) = (match dumpsElems (x :: xs) with
        | some body => some ('[' :: body ++ [']'])
        | none => none) from rfl] at h
      cases hde : dumpsElems (x :: xs) with
      | none => rw [hde] at h; cases h
      | some body =>
        rw [hde] at h
        injection h with h
        exact ⟨'[', _, by rw [← h]; rfl, by decide, by decide, by decide⟩
  | obj kvs =>
    cases kvs with
    | nil =>
      rw [show dumpsV (.obj []) = some ['\x7b', '\x7d'] from rfl] at h
      injection h with h
      exact ⟨'\x7b', _, h.symm, by decide, by decide, by decide⟩
    | cons kv kvs =>
      rw [show dumpsV (.obj (kv :: kvs)) = (match dumpsMembers (kv :: kvs) with
        | some body => some ('\x7b' :: body ++ ['\x7d'])
        | none => none) from rfl] at h
      cases hde : dumpsMembers (kv :: kvs) with
      | none => rw [hde] at h; cases h
      | some body =>
        rw [hde] at h
        injection h with h
        exact ⟨'\x7b', _, by rw [← h]; rfl, by decide, by decide, by decide⟩
  | objref n =>
    rw [show dumpsV (.objref n) = none from rfl] at h
    cases h

theorem dumpsElems_cons (x : PyVal) (xs : List PyVal) :
    dumpsElems (x :: xs) = (match dumpsV x, xs with
      | some d, [] => some d
      | some d, _ :: _ =>
        match dumpsElems xs with
        | some rest => some (d ++ ',' :: ' ' :: rest)
        | none => none
      | none, _ => none) := rfl

theorem dumpsMembers_cons (kv : String × PyVal) (kvs : List (String × PyVal)) :
    dumpsMembers (kv :: kvs) = (match dumpsV kv.2, kvs with
      | some d, [] => some (strLit kv.1 ++ ':' :: ' ' :: d)
      | some d, _ :: _ =>
        match dumpsMembers kvs with
        | some rest => some (strLit kv.1 ++ ':' :: ' ' :: d ++ ',' :: ' ' :: rest)
        | none => none
      | none, _ => none) := rfl

theorem sizeV_arr (xs : List PyVal) : sizeV (.arr xs) = 1 + sizeL xs := rfl

theorem sizeV_obj (kvs : List (String × PyVal)) : sizeV (.obj kvs) = 1 + sizeO kvs := rfl

theorem sizeL_cons (x : PyVal) (xs : List PyVal) :
    sizeL (x :: xs) = 1 + sizeV x + sizeL xs := rfl

theorem sizeO_cons (kv : String × PyVal) (kvs : List (String × PyVal)) :
    sizeO (kv :: kvs) = 1 + sizeV kv.2 + sizeO kvs := rfl

theorem nodupV_arr (xs : List PyVal) : nodupV (.arr xs) = nodupL xs := rfl

theorem nodupV_obj (kvs : List (String × PyVal)) :
    nodupV (.obj kvs) = (decide (kvs.map Prod.fst).Nodup && nodupO kvs) := rfl

theorem nodupL_cons (x : PyVal) (xs : List PyVal) :
    nodupL (x :: xs) = (nodupV x && nodupL xs) := rfl

theorem nodupO_cons (kv : String × PyVal) (kvs : List (String × PyVal)) :
    nodupO (kv :: kvs) = (nodupV kv.2 && nodupO kvs) := rfl

theorem dumpsElems_head (x : PyVal) (xs : List PyVal) (body : List Char)
    (h : dumpsElems (x :: xs) = some body) :
    ∃ c t, body = c :: t ∧ wsChar c = false ∧ c ≠ ']' ∧ c ≠ '\x7d' := by
  rw [dumpsElems_cons] at h
  cases hdx : dumpsV x with
  | none => rw [hdx] at h; cases h
  | some d =>
    rw [hdx] at h
    obtain ⟨c, t, hct, hws, h1, h2⟩ := dumpsV_head x d hdx
    cases xs with
    | nil =>
      injection h with h
      exact ⟨c, t, by rw [← h, hct], hws, h1, h2⟩
    | cons y ys =>
      cases hde : dumpsElems (y :: ys) with
      | none => rw [hde] at h; cases h
      | some rest =>
        rw [hde] at h
        injection h with h
        exact ⟨c, t ++ ',' :: ' ' :: rest, by rw [← h, hct]; rfl, hws, h1, h2⟩

theorem dumpsMembers_head (kv : String × PyVal) (kvs : List (String × PyVal)) (body : List Char)
    (h : dumpsMembers (kv :: kvs) = some body) :
    ∃ t, body = '"' :: t := by
  rw [dumpsMembers_cons] at h
  cases hdx : dumpsV kv.2 with
  | none => rw [hdx] at h; cases h
  | some d =>
    rw [hdx] at h
    cases kvs with
    | nil =>
      injection h with h
      exact ⟨_, by rw [← h]; rfl⟩
    | cons kv2 kvs2 =>
      cases hde : dumpsMembers (kv2 :: kvs2) with
      | none => rw [hde] at h; cases h
      | some rest =>
        rw [hde] at h
        injection h with h
        exact ⟨_, by rw [← h]; rfl⟩

/-! Round trip of the serializer through the scanner. -/

theorem numBoundary_bracket (r : List Char) : numBoundary (']' :: r) :=
  ⟨by decide, by decide, by decide, by decide⟩

theorem numBoundary_brace (r : List Char) : numBoundary ('\x7d' :: r) :=
  ⟨by decide, by decide, by decide, by decide⟩

theorem numBoundary_comma (r : List Char) : numBoundary (',' :: r) :=
  ⟨by decide, by decide, by decide, by decide⟩

/-- Round trip statement for one value. -/
def RTV (v : PyVal) : Prop :=
  ∀ out, dumpsV v = some out → nodupV v = true →
    ∀ fuel, sizeV v ≤ fuel → ∀ rest, numBoundary rest →
      parseVal fuel (out ++ rest) = some (v, rest)

/-- Round trip statement for array elements (with the closing bracket). -/
def RTL (xs : List PyVal) : Prop :=
  ∀ out, dumpsElems xs = some out → xs ≠ [] → nodupL xs = true →
    ∀ fuel, sizeL xs ≤ fuel → ∀ rest,
      parseElems fuel (out ++ ']' :: rest) = some (xs, rest)

/-- Round trip statement for object members (with the closing brace). -/
def RTO (kvs : List (String × PyVal)) : Prop :=
  ∀ out, dumpsMembers kvs = some out → kvs ≠ [] → nodupO kvs = true →
    ∀ fuel, sizeO kvs ≤ fuel → ∀ rest,
      parseMembers fuel (out ++ '\x7d' :: rest) = some (kvs, rest)

theorem parseElems_step (f : Nat) (cs : List Char) (v : PyVal) (r : List Char)
    (hv : parseVal f cs = some (v, r)) :
    parseElems (f + 1) cs = (match skipWs r with
      | [] => none
      | c :: r2 =>
        if c = ',' then
          match parseElems f (skipWs r2) with
          | some (vs, r3) => some (v :: vs, r3)
          | none => none
        else if c = ']' then some ([v], r2)
        else none) := by
  conv => lhs; rw [parseElems]
  rw [hv]

theorem rtl_of (xs : List PyVal) (hall : ∀ x ∈ xs, RTV x) : RTL xs := by
  induction xs with
  | nil => intro out _ hne; exact absurd rfl hne
  | cons x t ih =>
    intro out hout _ hnd fuel hfuel rest
    rw [dumpsElems_cons] at hout
    cases hdx : dumpsV x with
    | none => rw [hdx] at hout; cases hout
    | some d =>
      rw [hdx] at hout
      rw [nodupL_cons, Bool.and_eq_true] at hnd
      rw [sizeL_cons] at hfuel
      cases fuel with
      | zero => omega
      | succ f =>
        cases t with
        | nil =>
          injection hout with hout
          subst hout
          have hpv := hall x (List.mem_cons_self x []) d hdx hnd.1 f (by omega)
            (']' :: rest) (numBoundary_bracket rest)
          rw [parseElems_step f _ x (']' :: rest) hpv, skipWs_cons_not_ws _ (by decide)]
          simp
        | cons y t2 =>
          cases hde : dumpsElems (y :: t2) with
          | none => rw [hde] at hout; cases hout
          | some rest2 =>
            rw [hde] at hout
            injection hout with hout
            subst hout
            obtain ⟨cb, tb, hct, hwsb, hb1, hb2⟩ := dumpsElems_head y t2 rest2 hde
            have hpv := hall x (List.mem_cons_self x (y :: t2)) d hdx hnd.1 f (by omega)
              (',' :: ' ' :: (rest2 ++ ']' :: rest)) (numBoundary_comma _)
            have heq : (d ++ ',' :: ' ' :: rest2) ++ ']' :: rest =
                d ++ (',' :: ' ' :: (rest2 ++ ']' :: rest)) := by
              simp
            rw [heq]
            rw [parseElems_step f _ x _ hpv, skipWs_cons_not_ws _ (by decide)]
            have hih := ih (fun z hz => hall z (List.mem_cons_of_mem x hz)) rest2 hde
              (by simp) hnd.2 f (by rw [sizeL_cons] at hfuel ⊢; omega) rest
            have hsw : skipWs (' ' :: (rest2 ++ ']' :: rest)) = rest2 ++ ']' :: rest := by
              rw [skipWs_cons_ws _ (by decide), hct, List.cons_append,
                skipWs_cons_not_ws _ hwsb, ← List.cons_append, ← hct]
            simp only [reduceIte, hsw, hih]

theorem rto_of (kvs : List (String × PyVal)) (hall : ∀ kv ∈ kvs, RTV kv.2) : RTO kvs := by
  induction kvs with
  | nil => intro out _ hne; exact absurd rfl hne
  | cons kv t ih =>
    obtain ⟨k, v⟩ := kv
    intro out hout _ hnd fuel hfuel rest
    rw [dumpsMembers_cons] at hout
    cases hdx : dumpsV v with
    | none => rw [show ((k, v).2 : PyVal) = v from rfl, hdx] at hout; cases hout
    | some d =>
      rw [show ((k, v).2 : PyVal) = v from rfl, hdx] at hout
      rw [nodupO_cons, Bool.and_eq_true] at hnd
      rw [sizeO_cons] at hfuel
      have hndv : nodupV v = true := hnd.1
      obtain ⟨cd, td, hcd, hwsd, _, _⟩ := dumpsV_head v d hdx
      cases fuel with
      | zero => omega
      | succ f =>
        have hmem : (k, v) ∈ (k, v) :: t := List.mem_cons_self _ _
        cases t with
        | nil =>
          injection hout with hout
          subst hout
          have hin : (strLit k ++ ':' :: ' ' :: d) ++ '\x7d' :: rest =
              '"' :: (k.data.flatMap escapeChar ++ '"' ::
                (':' :: ' ' :: (d ++ '\x7d' :: rest))) := by
            simp [strLit]
          rw [hin]
          conv => lhs; rw [parseMembers]
          have hkey := parseStr_escaped k.data (':' :: ' ' :: (d ++ '\x7d' :: rest))
          have hsw1 : skipWs (':' :: ' ' :: (d ++ '\x7d' :: rest)) =
              ':' :: ' ' :: (d ++ '\x7d' :: rest) := skipWs_cons_not_ws _ (by decide)
          have hsw2 : skipWs (' ' :: (d ++ '\x7d' :: rest)) = d ++ '\x7d' :: rest := by
            rw [skipWs_cons_ws _ (by decide), hcd, List.cons_append,
              skipWs_cons_not_ws _ hwsd, ← List.cons_append, ← hcd]
          have hpv := hall (k, v) hmem d hdx hndv f (by simp at hfuel ⊢; omega)
            ('\x7d' :: rest) (numBoundary_brace rest)
          have hsw3 : skipWs ('\x7d' :: rest) = '\x7d' :: rest :=
            skipWs_cons_not_ws _ (by decide)
          have heta : String.mk k.data = k := rfl
          simp only [hkey, hsw1, reduceIte, hsw2, hpv, hsw3, heta]
          rw [if_neg (by decide)]
        | cons kv2 t2 =>
          cases hde : dumpsMembers (kv2 :: t2) with
          | none => rw [hde] at hout; cases hout
          | some rest2 =>
            rw [hde] at hout
            injection hout with hout
            subst hout
            obtain ⟨tm, htm⟩ := dumpsMembers_head kv2 t2 rest2 hde
            have hin : (strLit k ++ ':' :: ' ' :: d ++ ',' :: ' ' :: rest2) ++ '\x7d' :: rest =
                '"' :: (k.data.flatMap escapeChar ++ '"' ::
                  (':' :: ' ' :: (d ++ ',' :: ' ' :: (rest2 ++ '\x7d' :: rest)))) := by
              simp [strLit]
            rw [hin]
            conv => lhs; rw [parseMembers]
            have hkey := parseStr_escaped k.data
              (':' :: ' ' :: (d ++ ',' :: ' ' :: (rest2 ++ '\x7d' :: rest)))
            have hsw1 : skipWs (':' :: ' ' :: (d ++ ',' :: ' ' :: (rest2 ++ '\x7d' :: rest))) =
                ':' :: ' ' :: (d ++ ',' :: ' ' :: (rest2 ++ '\x7d' :: rest)) :=
              skipWs_cons_not_ws _ (by decide)
            have hsw2 : skipWs (' ' :: (d ++ ',' :: ' ' :: (rest2 ++ '\x7d' :: rest))) =
                d ++ ',' :: ' ' :: (rest2 ++ '\x7d' :: rest) := by
              rw [skipWs_cons_ws _ (by decide), hcd, List.cons_append,
                skipWs_cons_not_ws _ hwsd, ← List.cons_append, ← hcd]
            have hpv := hall (k, v) hmem d hdx hndv f (by simp at hfuel ⊢; omega)
              (',' :: ' ' :: (rest2 ++ '\x7d' :: rest)) (numBoundary_comma _)
            have hsw3 : skipWs (',' :: ' ' :: (rest2 ++ '\x7d' :: rest)) =
                ',' :: ' ' :: (rest2 ++ '\x7d' :: rest) := skipWs_cons_not_ws _ (by decide)
            have hsw4 : skipWs (' ' :: (rest2 ++ '\x7d' :: rest)) = rest2 ++ '\x7d' :: rest := by
              rw [skipWs_cons_ws _ (by decide), htm, List.cons_append,
                skipWs_cons_not_ws _ (by decide), ← List.cons_append, ← htm]
            have hih := ih (fun z hz => hall z (List.mem_cons_of_mem _ hz)) rest2 hde
              (by simp) hnd.2 f (by simp at hfuel ⊢; omega) rest
            have heta : String.mk k.data = k := rfl
            simp only [hkey, hsw1, reduceIte, hsw2, hpv, hsw3, hsw4, hih, heta]

theorem rtv_all : ∀ v, RTV v := by
  apply pyvalRec
  · -- null
    intro out hout _ fuel hfuel rest hb
    rw [show dumpsV .null = some ['n', 'u', 'l', 'l'] from rfl] at hout
    injection hout with hout
    subst hout
    cases fuel with
    | zero => simp [sizeV] at hfuel
    | succ f => simp [parseVal]
  · -- bool
    intro b out hout _ fuel hfuel rest hb
    cases fuel with
    | zero => simp [sizeV] at hfuel
    | succ f =>
      cases b with
      | true =>
        rw [show dumpsV (.bool true) = some ['t', 'r', 'u', 'e'] from rfl] at hout
        injection hout with hout
        subst hout
        simp [parseVal]
      | false =>
        rw [show dumpsV (.bool false) = some ['f', 'a', 'l', 's', 'e'] from rfl] at hout
        injection hout with hout
        subst hout
        simp [parseVal]
  · -- int
    intro i out hout _ fuel hfuel rest hb
    rw [show dumpsV (.int i) = some (intChars i) from rfl] at hout
    injection hout with hout
    subst hout
    cases fuel with
    | zero => simp [sizeV] at hfuel
    | succ f =>
      obtain ⟨c, t, hct, hc⟩ := intChars_cons i
      rw [hct, List.cons_append]
      have hnum : parseNum (c :: (t ++ rest)) = some (.int i, rest) := by
        have := parseNum_intChars i rest hb
        rw [hct] at this
        simpa using this
      obtain ⟨n1, n2, n3, n4, n5, n6⟩ := startDig_ne c hc
      simp only [parseVal, if_neg n1, if_neg n2, if_neg n3, if_neg n4, if_neg n5, if_neg n6,
        hnum]
  · -- str
    intro s out hout _ fuel hfuel rest hb
    rw [show dumpsV (.str s) = some (strLit s) from rfl] at hout
    injection hout with hout
    subst hout
    cases fuel with
    | zero => simp [sizeV] at hfuel
    | succ f =>
      have hin : strLit s ++ rest =
          '"' :: (s.data.flatMap escapeChar ++ '"' :: rest) := by
        simp [strLit]
      rw [hin]
      have hkey := parseStr_escaped s.data rest
      have heta : String.mk s.data = s := rfl
      simp only [parseVal, reduceIte, hkey, heta]
  · -- arr
    intro xs hIH out hout hnd fuel hfuel rest hb
    cases xs with
    | nil =>
      rw [show dumpsV (.arr []) = some ['[', ']'] from rfl] at hout
      injection hout with hout
      subst hout
      cases fuel with
      | zero => simp [sizeV] at hfuel
      | succ f =>
        simp only [parseVal, List.cons_append, List.nil_append, reduceIte]
        rw [skipWs_cons_not_ws _ (by decide)]
        simp
    | cons x xs =>
      rw [show dumpsV (.arr (x :: xs)) = (match dumpsElems (x :: xs) with
        | some body => some ('[' :: body ++ [']'])
        | none => none) from rfl] at hout
      cases hde : dumpsElems (x :: xs) with
      | none => rw [hde] at hout; cases hout
      | some body =>
        rw [hde] at hout
        injection hout with hout
        subst hout
        rw [nodupV_arr] at hnd
        rw [sizeV_arr] at hfuel
        cases fuel with
        | zero => omega
        | succ f =>
          obtain ⟨cb, tb, hct, hwsb, hb1, hb2⟩ := dumpsElems_head x xs body hde
          have hel := rtl_of (x :: xs) hIH body hde (by simp) hnd f (by omega) rest
          rw [hct] at hel
          simp only [List.cons_append] at hel
          have hin : ('[' :: body ++ [']']) ++ rest = '[' :: (cb :: (tb ++ ']' :: rest)) := by
            rw [hct]; simp
          rw [hin]
          have hsw : skipWs (cb :: (tb ++ ']' :: rest)) = cb :: (tb ++ ']' :: rest) :=
            skipWs_cons_not_ws _ hwsb
          simp only [parseVal, reduceIte, hsw, hb1, hel]
          rw [if_neg (by decide)]
  · -- obj
    intro kvs hIH out hout hnd fuel hfuel rest hb
    cases kvs with
    | nil =>
      rw [show dumpsV (.obj []) = some ['\x7b', '\x7d'] from rfl] at hout
      injection hout with hout
      subst hout
      cases fuel with
      | zero => simp [sizeV] at hfuel
      | succ f =>
        simp only [parseVal, List.cons_append, List.nil_append, reduceIte]
        rw [skipWs_cons_not_ws _ (by decide)]
        simp
    | cons kv t =>
      rw [show dumpsV (.obj (kv :: t)) = (match dumpsMembers (kv :: t) with
        | some body => some ('\x7b' :: body ++ ['\x7d'])
        | none => none) from rfl] at hout
      cases hde : dumpsMembers (kv :: t) with
      | none => rw [hde] at hout; cases hout
      | some body =>
        rw [hde] at hout
        injection hout with hout
        subst hout
        rw [nodupV_obj, Bool.and_eq_true] at hnd
        rw [sizeV_obj] at hfuel
        cases fuel with
        | zero => omega
        | succ f =>
          obtain ⟨tm, htm⟩ := dumpsMembers_head kv t body hde
          have hmm := rto_of (kv :: t) hIH body hde (by simp) hnd.2 f (by omega) rest
          rw [htm] at hmm
          simp only [List.cons_append] at hmm
          have hin : ('\x7b' :: body ++ ['\x7d']) ++ rest =
              '\x7b' :: ('"' :: (tm ++ '\x7d' :: rest)) := by
            rw [htm]; simp
          rw [hin]
          have hsw : skipWs ('"' :: (tm ++ '\x7d' :: rest)) = '"' :: (tm ++ '\x7d' :: rest) :=
            skipWs_cons_not_ws _ (by decide)
          have hbd : buildDict (kv :: t) = kv :: t :=
            buildDict_nodup _ (of_decide_eq_true hnd.1)
          simp only [parseVal, reduceIte, hsw, hmm, hbd]
          simp
  · -- objref
    intro n out hout
    rw [show dumpsV (.objref n) = none from rfl] at hout
    cases hout

/-! Size and ASCII bounds on serializer output, and the top-level round trip. -/

/-- Size bound statement for one value. -/
def LV (v : PyVal) : Prop := ∀ out, dumpsV v = some out → sizeV v ≤ out.length

/-- Size bound statement for elements. -/
def LL (xs : List PyVal) : Prop :=
  ∀ out, dumpsElems xs = some out → xs ≠ [] → sizeL xs ≤ out.length + 1

/-- Size bound statement for members. -/
def LO (kvs : List (String × PyVal)) : Prop :=
  ∀ out, dumpsMembers kvs = some out → kvs ≠ [] → sizeO kvs ≤ out.length + 1

theorem ll_of (xs : List PyVal) (hall : ∀ x ∈ xs, LV x) : LL xs := by
  induction xs with
  | nil => intro out _ hne; exact absurd rfl hne
  | cons x t ih =>
    intro out hout _
    rw [dumpsElems_cons] at hout
    cases hdx : dumpsV x with
    | none => rw [hdx] at hout; cases hout
    | some d =>
      rw [hdx] at hout
      have hx := hall x (List.mem_cons_self x t) d hdx
      cases t with
      | nil =>
        injection hout with hout
        subst hout
        rw [sizeL_cons]
        simp only [sizeL]
        omega
      | cons y t2 =>
        cases hde : dumpsElems (y :: t2) with
        | none => rw [hde] at hout; cases hout
        | some rest2 =>
          rw [hde] at hout
          injection hout with hout
          subst hout
          have ht := ih (fun z hz => hall z (List.mem_cons_of_mem _ hz)) rest2 hde (by simp)
          rw [sizeL_cons]
          simp only [List.length_append, List.length_cons]
          omega

theorem lo_of (kvs : List (String × PyVal)) (hall : ∀ kv ∈ kvs, LV kv.2) : LO kvs := by
  induction kvs with
  | nil => intro out _ hne; exact absurd rfl hne
  | cons kv t ih =>
    intro out hout _
    rw [dumpsMembers_cons] at hout
    cases hdx : dumpsV kv.2 with
    | none => rw [hdx] at hout; cases hout
    | some d =>
      rw [hdx] at hout
      have hx := hall kv (List.mem_cons_self kv t) d hdx
      cases t with
      | nil =>
        injection hout with hout
        subst hout
        rw [sizeO_cons]
        simp only [sizeO, List.length_append, List.length_cons]
        omega
      | cons kv2 t2 =>
        cases hde : dumpsMembers (kv2 :: t2) with
        | none => rw [hde] at hout; cases hout
        | some rest2 =>
          rw [hde] at hout
          injection hout with hout
          subst hout
          have ht := ih (fun z hz => hall z (List.mem_cons_of_mem _ hz)) rest2 hde (by simp)
          rw [sizeO_cons]
          simp only [List.length_append, List.length_cons]
          omega

theorem lv_all : ∀ v, LV v := by
  apply pyvalRec
  · intro out hout
    rw [show dumpsV .null = some ['n', 'u', 'l', 'l'] from rfl] at hout
    injection hout with hout
    subst hout
    simp [sizeV]
  · intro b out hout
    cases b with
    | true =>
      rw [show dumpsV (.bool true) = some ['t', 'r', 'u', 'e'] from rfl] at hout
      injection hout with hout
      subst hout
      simp [sizeV]
    | false =>
      rw [show dumpsV (.bool false) = some ['f', 'a', 'l', 's', 'e'] from rfl] at hout
      injection hout with hout
      subst hout
      simp [sizeV]
  · intro i out hout
    rw [show dumpsV (.int i) = some (intChars i) from rfl] at hout
    injection hout with hout
    subst hout
    obtain ⟨c, t, hct, _⟩ := intChars_cons i
    rw [hct]
    simp [sizeV]
  · intro s out hout
    rw [show dumpsV (.str s) = some (strLit s) from rfl] at hout
    injection hout with hout
    subst hout
    show sizeV (.str s) ≤ (strLit s).length
    rw [show strLit s = '"' :: (s.data.flatMap escapeChar ++ ['"']) from rfl]
    simp [sizeV]
  · intro xs hIH out hout
    cases xs with
    | nil =>
      rw [show dumpsV (.arr []) = some ['[', ']'] from rfl] at hout
      injection hout with hout
      subst hout
      simp [sizeV_arr, sizeL]
    | cons x t =>
      rw [show dumpsV (.arr (x :: t)) = (match dumpsElems (x :: t) with
        | some body => some ('[' :: body ++ [']'])
        | none => none) from rfl] at hout
      cases hde : dumpsElems (x :: t) with
      | none => rw [hde] at hout; cases hout
      | some body =>
        rw [hde] at hout
        injection hout with hout
        subst hout
        have := ll_of (x :: t) hIH body hde (by simp)
        rw [sizeV_arr]
        simp only [List.length_append, List.length_cons]
        omega
  · intro kvs hIH out hout
    cases kvs with
    | nil =>
      rw [show dumpsV (.obj []) = some ['\x7b', '\x7d'] from rfl] at hout
      injection hout with hout
      subst hout
      simp [sizeV_obj, sizeO]
    | cons kv t =>
      rw [show dumpsV (.obj (kv :: t)) = (match dumpsMembers (kv :: t) with
        | some body => some ('\x7b' :: body ++ ['\x7d'])
        | none => none) from rfl] at hout
      cases hde : dumpsMembers (kv :: t) with
      | none => rw [hde] at hout; cases hout
      | some body =>
        rw [hde] at hout
        injection hout with hout
        subst hout
        have := lo_of (kv :: t) hIH body hde (by simp)
        rw [sizeV_obj]
        simp only [List.length_append, List.length_cons]
        omega
  · intro n out hout
    rw [show dumpsV (.objref n) = none from rfl] at hout
    cases hout

/-- ASCII bound statement for one value. -/
def AV (v : PyVal) : Prop := ∀ out, dumpsV v = some out → ∀ x ∈ out, x.toNat < 128

/-- ASCII bound statement for elements. -/
def AL (xs : List PyVal) : Prop :=
  ∀ out, dumpsElems xs = some out → ∀ x ∈ out, x.toNat < 128

/-- ASCII bound statement for members. -/
def AO (kvs : List (String × PyVal)) : Prop :=
  ∀ out, dumpsMembers kvs = some out → ∀ x ∈ out, x.toNat < 128

theorem al_of (xs : List PyVal) (hall : ∀ x ∈ xs, AV x) : AL xs := by
  induction xs with
  | nil =>
    intro out hout
    rw [show dumpsElems [] = some [] from rfl] at hout
    injection hout with hout
    subst hout
    intro x hx
    cases hx
  | cons x t ih =>
    intro out hout
    rw [dumpsElems_cons] at hout
    cases hdx : dumpsV x with
    | none => rw [hdx] at hout; cases hout
    | some d =>
      rw [hdx] at hout
      have hx := hall x (List.mem_cons_self x t) d hdx
      cases t with
      | nil =>
        injection hout with hout
        subst hout
        exact hx
      | cons y t2 =>
        cases hde : dumpsElems (y :: t2) with
        | none => rw [hde] at hout; cases hout
        | some rest2 =>
          rw [hde] at hout
          injection hout with hout
          subst hout
          have ht := ih (fun z hz => hall z (List.mem_cons_of_mem _ hz)) rest2 hde
          intro z hz
          simp only [List.mem_append, List.mem_cons] at hz
          rcases hz with hz | rfl | rfl | hz
          · exact hx z hz
          · decide
          · decide
          · exact ht z hz

theorem ao_of (kvs : List (String × PyVal)) (hall : ∀ kv ∈ kvs, AV kv.2) : AO kvs := by
  induction kvs with
  | nil =>
    intro out hout
    rw [show dumpsMembers [] = some [] from rfl] at hout
    injection hout with hout
    subst hout
    intro x hx
    cases hx
  | cons kv t ih =>
    intro out hout
    rw [dumpsMembers_cons] at hout
    cases hdx : dumpsV kv.2 with
    | none => rw [hdx] at hout; cases hout
    | some d =>
      rw [hdx] at hout
      have hx := hall kv (List.mem_cons_self kv t) d hdx
      cases t with
      | nil =>
        injection hout with hout
        subst hout
        intro z hz
        simp only [List.mem_append, List.mem_cons] at hz
        rcases hz with hz | rfl | rfl | hz
        · exact strLit_ascii kv.1 z hz
        · decide
        · decide
        · exact hx z hz
      | cons kv2 t2 =>
        cases hde : dumpsMembers (kv2 :: t2) with
        | none => rw [hde] at hout; cases hout
        | some rest2 =>
          rw [hde] at hout
          injection hout with hout
          subst hout
          have ht := ih (fun z hz => hall z (List.mem_cons_of_mem _ hz)) rest2 hde
          intro z hz
          simp only [List.mem_append, List.mem_cons] at hz
          rcases hz with (hz | rfl | rfl | hz) | rfl | rfl | hz
          · exact strLit_ascii kv.1 z hz
          · decide
          · decide
          · exact hx z hz
          · decide
          · decide
          · exact ht z hz

theorem av_all : ∀ v, AV v := by
  apply pyvalRec
  · intro out hout
    rw [show dumpsV .null = some ['n', 'u', 'l', 'l'] from rfl] at hout
    injection hout with hout
    subst hout
    decide
  · intro b out hout
    cases b with
    | true =>
      rw [show dumpsV (.bool true) = some ['t', 'r', 'u', 'e'] from rfl] at hout
      injection hout with hout
      subst hout
      decide
    | false =>
      rw [show dumpsV (.bool false) = some ['f', 'a', 'l', 's', 'e'] from rfl] at hout
      injection hout with hout
      subst hout
      decide
  · intro i out hout
    rw [show dumpsV (.int i) = some (intChars i) from rfl] at hout
    injection hout with hout
    subst hout
    exact intChars_ascii i
  · intro s out hout
    rw [show dumpsV (.str s) = some (strLit s) from rfl] at hout
    injection hout with hout
    subst hout
    exact strLit_ascii s
  · intro xs hIH out hout
    cases xs with
    | nil =>
      rw [show dumpsV (.arr []) = some ['[', ']'] from rfl] at hout
      injection hout with hout
      subst hout
      decide
    | cons x t =>
      rw [show dumpsV (.arr (x :: t)) = (match dumpsElems (x :: t) with
        | some body => some ('[' :: body ++ [']'])
        | none => none) from rfl] at hout
      cases hde : dumpsElems (x :: t) with
      | none => rw [hde] at hout; cases hout
      | some body =>
        rw [hde] at hout
        injection hout with hout
        subst hout
        have hb := al_of (x :: t) hIH body hde
        intro z hz
        simp only [List.mem_append, List.mem_cons, List.not_mem_nil, or_false] at hz
        rcases hz with (rfl | hz) | rfl
        · decide
        · exact hb z hz
        · decide
  · intro kvs hIH out hout
    cases kvs with
    | nil =>
      rw [show dumpsV (.obj []) = some ['\x7b', '\x7d'] from rfl] at hout
      injection hout with hout
      subst hout
      decide
    | cons kv t =>
      rw [show dumpsV (.obj (kv :: t)) = (match dumpsMembers (kv :: t) with
        | some body => some ('\x7b' :: body ++ ['\x7d'])
        | none => none) from rfl] at hout
      cases hde : dumpsMembers (kv :: t) with
      | none => rw [hde] at hout; cases hout
      | some body =>
        rw [hde] at hout
        injection hout with hout
        subst hout
        have hb := ao_of (kv :: t) hIH body hde
        intro z hz
        simp only [List.mem_append, List.mem_cons, List.not_mem_nil, or_false] at hz
        rcases hz with (rfl | hz) | rfl
        · decide
        · exact hb z hz
        · decide
  · intro n out hout
    rw [show dumpsV (.objref n) = none from rfl] at hout
    cases hout

/-! From serializer output back through `json.loads`. -/

theorem jsonLoads_dumps (v : PyVal) (out : List Char)
    (hd : dumpsV v = some out) (hn : nodupV v = true) :
    jsonLoads (String.mk out) = some v := by
  obtain ⟨c, t, rfl, hws, _, _⟩ := dumpsV_head v out hd
  have hskip : skipWs (c :: t) = c :: t := by
    simp [skipWs, List.dropWhile_cons, hws]
  have hsize : sizeV v ≤ (c :: t).length + 1 := by
    have := lv_all v (c :: t) hd
    omega
  have hrt := rtv_all v (c :: t) hd hn ((c :: t).length + 1) hsize [] trivial
  rw [List.append_nil] at hrt
  show (match parseVal ((skipWs (c :: t)).length + 1) (skipWs (c :: t)) with
    | some (v, r) => if skipWs r = [] then some v else none
    | none => none) = some v
  rw [hskip, hrt]
  rfl

/-! UTF-8 on ASCII text: encoding is the identity on code points, and the
strict decoder inverts it. -/

theorem utf8EncodeChar_ascii (c : Char) (h : c.toNat < 128) :
    utf8EncodeChar c = [c.toNat] := by
  simp [utf8EncodeChar, h]

theorem utf8Encode_ascii (cs : List Char) (h : ∀ c ∈ cs, c.toNat < 128) :
    utf8Encode (String.mk cs) = cs.map Char.toNat := by
  show cs.flatMap utf8EncodeChar = cs.map Char.toNat
  induction cs with
  | nil => rfl
  | cons c t ih =>
    rw [List.flatMap_cons, utf8EncodeChar_ascii c (h c (List.mem_cons_self c t)),
      List.map_cons, ih (fun x hx => h x (List.mem_cons_of_mem _ hx))]
    rfl

theorem utf8Step_ascii (b : Nat) (hb : b < 128) (bs : List Nat) :
    utf8Step b bs = some (Char.ofNat b, bs) := by
  unfold utf8Step
  rw [if_pos hb]

theorem utf8DecodeStrictAux_ascii (fuel : Nat) (cs : List Char)
    (hf : cs.length < fuel) (h : ∀ c ∈ cs, c.toNat < 128) :
    utf8DecodeStrictAux fuel (cs.map Char.toNat) = some cs := by
  induction fuel generalizing cs with
  | zero => omega
  | succ f ih =>
    cases cs with
    | nil => rfl
    | cons c t =>
      rw [List.map_cons]
      show (match utf8Step c.toNat (t.map Char.toNat) with
        | some (x, rest) =>
          match utf8DecodeStrictAux f rest with
          | some xs => some (x :: xs)
          | none => none
        | none => none) = some (c :: t)
      rw [utf8Step_ascii c.toNat (h c (List.mem_cons_self c t)) (t.map Char.toNat)]
      show (match utf8DecodeStrictAux f (t.map Char.toNat) with
        | some xs => some (Char.ofNat c.toNat :: xs)
        | none => none) = some (c :: t)
      rw [ih t (by simp at hf; omega) (fun x hx => h x (List.mem_cons_of_mem _ hx))]
      have : Char.ofNat c.toNat = c := by
        apply Char.ext
        simp [Char.ofNat, Char.toNat]
        rw [dif_pos]
        · rfl
        · exact c.valid
      rw [this]

theorem utf8DecodeStrict_encode_ascii (cs : List Char) (h : ∀ c ∈ cs, c.toNat < 128) :
    utf8DecodeStrict (cs.map Char.toNat) = some cs := by
  unfold utf8DecodeStrict
  rw [List.length_map]
  exact utf8DecodeStrictAux_ascii (cs.length + 1) cs (Nat.lt_succ_self _) h

/-- The serializer/parser round trip through bytes: whatever
`_encode_metadata` produces, `_decode_metadata` restores, provided the
value's objects have distinct keys (true of every Python dict). -/
theorem metadata_roundtrip (v : PyVal) (bs : List Nat)
    (hn : nodupV v = true) (he : encodeMetadata v = .ok bs) :
    decodeMetadata bs = v := by
  cases hout : dumpsV v with
  | none =>
    unfold encodeMetadata jsonDumps at he
    rw [hout] at he
    cases he
  | some out =>
    have hascii := av_all v out hout
    have he2 : (Except.ok (utf8Encode (String.mk out)) : Except ZipErr (List Nat)) = .ok bs := by
      rw [← he]
      unfold encodeMetadata jsonDumps
      rw [hout]
      rfl
    rw [utf8Encode_ascii out hascii] at he2
    have hbs : out.map Char.toNat = bs := by injection he2
    subst hbs
    obtain ⟨c, t, hct, _, _, _⟩ := dumpsV_head v out hout
    unfold decodeMetadata
    rw [if_neg (by rw [hct]; simp)]
    rw [utf8DecodeStrict_encode_ascii out hascii]
    show (match jsonLoads (String.mk out) with
      | some v => v
      | none => PyVal.obj
          [("comment", .str (String.mk (utf8DecodeReplace (out.map Char.toNat))))]) = v
    rw [jsonLoads_dumps v out hout hn]

/-! The claims. -/

/-- Claim C8: decoding the empty byte string returns the empty mapping,
`decode(b"") == {}` (`_decode_metadata`'s `if not comment: return {}`). -/
theorem c8_decode_empty_is_empty_mapping : decodeMetadata [] = PyVal.obj [] := rfl

/-- Claim C2: for every JSON-serializable value `v` (one `json.dumps`
accepts, i.e. `encodeMetadata v` succeeds; `nodupV` is the Python dict
invariant that each object's keys are distinct), decoding the encoding of
`v` yields `v` exactly: `decode(encode(v)) == v`. -/
theorem c2_decode_encode_roundtrip (v : PyVal) (bs : List Nat)
    (hn : nodupV v = true) (he : encodeMetadata v = .ok bs) :
    decodeMetadata bs = v :=
  metadata_roundtrip v bs hn he

theorem c2_decode_encode_roundtrip_witness :
    nodupV (PyVal.obj [("a", PyVal.int 1)]) = true ∧
    encodeMetadata (PyVal.obj [("a", PyVal.int 1)]) =
      .ok [123, 34, 97, 34, 58, 32, 49, 125] ∧
    decodeMetadata [123, 34, 97, 34, 58, 32, 49, 125] = PyVal.obj [("a", PyVal.int 1)] :=
  ⟨rfl, rfl,
    c2_decode_encode_roundtrip (PyVal.obj [("a", PyVal.int 1)])
      [123, 34, 97, 34, 58, 32, 49, 125] rfl rfl⟩

/-- Claim C3: `decode` is total — `decodeMetadata` is a plain function into
values, never an error — and every non-empty byte string that is not the
UTF-8 encoding of parseable JSON decodes to the one-key mapping
`{"comment": t}` with `t` the bytes' best-effort text
(`decode('utf-8', errors='replace')`). -/
theorem c3_decode_total_with_fallback (bs : List Nat) (hne : bs ≠ [])
    (hnj : jsonOfBytes bs = none) :
    decodeMetadata bs =
      PyVal.obj [("comment", PyVal.str (String.mk (utf8DecodeReplace bs)))] := by
  have hie : bs.isEmpty = false := by
    cases bs with
    | nil => exact absurd rfl hne
    | cons b t => rfl
  unfold decodeMetadata
  rw [hie, if_neg (by decide)]
  unfold jsonOfBytes at hnj
  cases hd : utf8DecodeStrict bs with
  | none => rfl
  | some cs =>
    rw [hd] at hnj
    have hnj' : jsonLoads (String.mk cs) = none := hnj
    show (match jsonLoads (String.mk cs) with
      | some v => v
      | none => PyVal.obj [("comment", PyVal.str (String.mk (utf8DecodeReplace bs)))]) =
      PyVal.obj [("comment", PyVal.str (String.mk (utf8DecodeReplace bs)))]
    rw [hnj']

theorem c3_decode_total_with_fallback_witness :
    ([110, 111, 116, 32, 106, 115, 111, 110] : List Nat) ≠ [] ∧
    jsonOfBytes [110, 111, 116, 32, 106, 115, 111, 110] = none ∧
    decodeMetadata [110, 111, 116, 32, 106, 115, 111, 110] =
      PyVal.obj [("comment", PyVal.str "not json")] :=
  ⟨by decide, rfl, by
    rw [c3_decode_total_with_fallback [110, 111, 116, 32, 106, 115, 111, 110]
      (by decide) rfl]
    rfl⟩

/-- A write-mode handle, open, holding one entry already; the filesystem of
the missing-source scenario has no files at all. -/
def c5arch : ZipArchive :=
  ⟨ZMode.w, true, ⟨[⟨"present.txt", [1, 2], []⟩], []⟩⟩

/-- An empty filesystem. -/
def c5fs : FS := fun _ => none

/-- Claim C5: on an open write-mode handle, `add_file` with a source path
the filesystem does not have fails with `NotFound` and returns the archive
state unchanged — no entry, partial or otherwise, is added. -/
theorem c5_missing_source_notfound_unchanged (fs : FS) (z : ZipArchive) (p : String)
    (md : Option PyVal) (an : Option String)
    (hopen : z.isOpen = true) (hw : z.mode = ZMode.w) (hnf : fs p = none) :
    add_file fs z p md an = (some ZipErr.notFound, z) := by
  unfold add_file
  rw [if_neg (by simp [hopen]), if_neg (by simp [hw]), hnf]

theorem c5_missing_source_notfound_unchanged_witness :
    c5arch.isOpen = true ∧ c5arch.mode = ZMode.w ∧ c5fs "/no/such/file" = none ∧
    add_file c5fs c5arch "/no/such/file" none none = (some ZipErr.notFound, c5arch) :=
  ⟨rfl, rfl, rfl,
    c5_missing_source_notfound_unchanged c5fs c5arch "/no/such/file" none none rfl rfl rfl⟩

/-- A read-only open handle. -/
def c10arch : ZipArchive :=
  ⟨ZMode.r, true, ⟨[⟨"doc.txt", [7], []⟩], []⟩⟩

/-- An empty filesystem for the mode-versus-existence ordering scenario. -/
def c10fs : FS := fun _ => none

/-- Claim C10: in `add_file` the write-mode check runs before the existence
check, so a call on an open read-only handle with a missing source path
fails with `ModeViolation`, never `NotFound`. -/
theorem c10_mode_checked_before_existence (fs : FS) (z : ZipArchive) (p : String)
    (md : Option PyVal) (an : Option String)
    (hopen : z.isOpen = true) (hr : z.mode = ZMode.r) (hnf : fs p = none) :
    (add_file fs z p md an).1 = some ZipErr.modeViolation ∧
    (add_file fs z p md an).1 ≠ some ZipErr.notFound := by
  have h : add_file fs z p md an = (some ZipErr.modeViolation, z) := by
    unfold add_file
    rw [if_neg (by simp [hopen]), if_pos (by rw [hr]; decide)]
  rw [h]
  exact ⟨rfl, fun hc => ZipErr.noConfusion (Option.some.inj hc)⟩

theorem c10_mode_checked_before_existence_witness :
    c10arch.isOpen = true ∧ c10arch.mode = ZMode.r ∧ c10fs "/no/such/file" = none ∧
    (add_file c10fs c10arch "/no/such/file" none none).1 = some ZipErr.modeViolation ∧
    (add_file c10fs c10arch "/no/such/file" none none).1 ≠ some ZipErr.notFound :=
  ⟨rfl, rfl, rfl,
    (c10_mode_checked_before_existence c10fs c10arch "/no/such/file" none none rfl rfl rfl).1,
    (c10_mode_checked_before_existence c10fs c10arch "/no/such/file" none none rfl rfl rfl).2⟩

/-- Claim C4: on an open handle, `add_file` and `set_archive_metadata` fail
with `ModeViolation` whenever the mode is read-only, while
`get_archive_metadata`, `get_file_metadata` (for an existing entry) and
`list_contents` succeed regardless of the mode. -/
theorem c4_mode_enforcement (z : ZipArchive) (hopen : z.isOpen = true) :
    (z.mode = ZMode.r →
      (∀ fs p md an, (add_file fs z p md an).1 = some ZipErr.modeViolation) ∧
      (∀ m, (set_archive_metadata z m).1 = some ZipErr.modeViolation)) ∧
    (∃ v, get_archive_metadata z = .ok v) ∧
    (∀ name e, getinfo z.st (basename name) = some e →
      ∃ v, get_file_metadata z name = .ok v) ∧
    (∃ l, list_contents z = .ok l) := by
  refine ⟨fun hr => ⟨fun fs p md an => ?_, fun m => ?_⟩,
    ⟨decodeMetadata z.st.comment, ?_⟩,
    fun name e he => ⟨decodeMetadata e.comment, ?_⟩,
    ⟨z.st.filelist.map (fun info =>
      ⟨info.filename, info.data.length, info.data.length, decodeMetadata info.comment⟩), ?_⟩⟩
  · unfold add_file
    rw [if_neg (by simp [hopen]), if_pos (by rw [hr]; decide)]
  · unfold set_archive_metadata
    rw [if_neg (by simp [hopen]), if_pos (by rw [hr]; decide)]
  · unfold get_archive_metadata
    rw [if_neg (by simp [hopen])]
  · unfold get_file_metadata
    rw [if_neg (by simp [hopen]), he]
  · unfold list_contents
    rw [if_neg (by simp [hopen])]

/-- A read-only open handle with one commented-free entry, for the
mode-enforcement scenario. -/
def c4arch : ZipArchive :=
  ⟨ZMode.r, true, ⟨[⟨"doc.txt", [7], []⟩], []⟩⟩

theorem c4_mode_enforcement_witness :
    c4arch.isOpen = true ∧
    (add_file (fun _ => none) c4arch "f.txt" none none).1 = some ZipErr.modeViolation ∧
    (set_archive_metadata c4arch (PyVal.obj [("k", PyVal.int 1)])).1 =
      some ZipErr.modeViolation ∧
    (∃ v, get_archive_metadata c4arch = .ok v) ∧
    (∃ v, get_file_metadata c4arch "doc.txt" = .ok v) ∧
    (∃ l, list_contents c4arch = .ok l) := by
  have h := c4_mode_enforcement c4arch rfl
  exact ⟨rfl, (h.1 rfl).1 (fun _ => none) "f.txt" none none,
    (h.1 rfl).2 (PyVal.obj [("k", PyVal.int 1)]), h.2.1,
    h.2.2.1 "doc.txt" ⟨"doc.txt", [7], []⟩ rfl, h.2.2.2⟩

/-- Claim C6: `add_file` with truthy metadata that `json.dumps` cannot
serialize fails with a `Serialization` error and leaves the archive
unchanged — no entry is added. -/
theorem c6_unserializable_metadata_error (fs : FS) (z : ZipArchive) (p : String)
    (m : PyVal) (an : Option String) (content : List Nat)
    (hopen : z.isOpen = true) (hw : z.mode = ZMode.w) (hc : fs p = some content)
    (ht : pyTruthy m = true) (hs : jsonDumps m = none) :
    add_file fs z p (some m) an = (some ZipErr.serialization, z) := by
  unfold add_file
  rw [if_neg (by simp [hopen]), if_neg (by simp [hw])]
  simp only [hc, ht, if_true]
  unfold encodeMetadata
  simp only [hs]

/-- An open write-mode handle and a one-file filesystem for the
non-serializable-metadata scenario. -/
def c6arch : ZipArchive :=
  ⟨ZMode.w, true, ⟨[], []⟩⟩

/-- The filesystem holding only `f.txt`. -/
def c6fs : FS := fun p => if p = "f.txt" then some [1] else none

theorem c6_unserializable_metadata_error_witness :
    c6arch.isOpen = true ∧ c6arch.mode = ZMode.w ∧ c6fs "f.txt" = some [1] ∧
    pyTruthy (PyVal.obj [("key", PyVal.objref 0)]) = true ∧
    jsonDumps (PyVal.obj [("key", PyVal.objref 0)]) = none ∧
    add_file c6fs c6arch "f.txt" (some (PyVal.obj [("key", PyVal.objref 0)])) none =
      (some ZipErr.serialization, c6arch) :=
  ⟨rfl, rfl, rfl, rfl, rfl,
    c6_unserializable_metadata_error c6fs c6arch "f.txt"
      (PyVal.obj [("key", PyVal.objref 0)]) none [1] rfl rfl rfl rfl rfl⟩

/-- Claim C7: `get_file_metadata` looks up the base filename of the given
name (directory components stripped), fails with `NotFoundInArchive` when no
entry with that base name exists, and otherwise returns the decoded comment
of that entry — the empty mapping when the entry has no comment. -/
theorem c7_entry_metadata_lookup (z : ZipArchive) (name : String)
    (hopen : z.isOpen = true) :
    (getinfo z.st (basename name) = none →
      get_file_metadata z name = .error ZipErr.notFoundInArchive) ∧
    (∀ e, getinfo z.st (basename name) = some e →
      get_file_metadata z name = .ok (decodeMetadata e.comment)) ∧
    (∀ e, getinfo z.st (basename name) = some e → e.comment = [] →
      get_file_metadata z name = .ok (PyVal.obj [])) := by
  refine ⟨fun hn => ?_, fun e he => ?_, fun e he hce => ?_⟩
  · unfold get_file_metadata
    rw [if_neg (by simp [hopen]), hn]
  · unfold get_file_metadata
    rw [if_neg (by simp [hopen]), he]
  · unfold get_file_metadata
    rw [if_neg (by simp [hopen]), he]
    show Except.ok (decodeMetadata e.comment) = .ok (PyVal.obj [])
    rw [hce]
    rfl

/-- An open handle holding a comment-free `doc.txt`, for the lookup
scenarios of `get_file_metadata`. -/
def c7arch : ZipArchive :=
  ⟨ZMode.r, true, ⟨[⟨"doc.txt", [7], []⟩], []⟩⟩

theorem c7_entry_metadata_lookup_witness :
    c7arch.isOpen = true ∧
    getinfo c7arch.st (basename "dir/doc.txt") = some ⟨"doc.txt", [7], []⟩ ∧
    get_file_metadata c7arch "dir/doc.txt" = .ok (PyVal.obj []) ∧
    getinfo c7arch.st (basename "missing.txt") = none ∧
    get_file_metadata c7arch "missing.txt" = .error ZipErr.notFoundInArchive :=
  ⟨rfl, rfl,
    (c7_entry_metadata_lookup c7arch "dir/doc.txt" rfl).2.2 ⟨"doc.txt", [7], []⟩ rfl rfl,
    rfl,
    (c7_entry_metadata_lookup c7arch "missing.txt" rfl).1 rfl⟩

/-- Claim C9: `add_file` tests the metadata argument for truthiness, not for
presence (`if metadata:`), so passing the empty mapping is observationally
identical to passing no metadata: the two calls are equal, and on success
the appended entry carries no comment, which later reads decode as the
empty mapping. -/
theorem c9_empty_metadata_same_as_none (fs : FS) (z : ZipArchive) (p : String)
    (an : Option String) (hopen : z.isOpen = true) (hw : z.mode = ZMode.w)
    (content : List Nat) (hc : fs p = some content) :
    add_file fs z p (some (PyVal.obj [])) an = add_file fs z p none an ∧
    ∃ e, (add_file fs z p (some (PyVal.obj [])) an).2.st.filelist =
      z.st.filelist ++ [e] ∧ e.comment = [] ∧ decodeMetadata e.comment = PyVal.obj [] := by
  refine ⟨rfl, ⟨⟨(match an with
      | some a => if a = "" then basename p else a
      | none => basename p), content, []⟩, ?_, rfl, rfl⟩⟩
  unfold add_file
  rw [if_neg (by simp [hopen]), if_neg (by simp [hw])]
  simp only [hc]
  rfl

/-- An open write-mode handle starting from an empty container. -/
def c9arch : ZipArchive :=
  ⟨ZMode.w, true, ⟨[], []⟩⟩

/-- The filesystem holding only `f.txt` for the empty-metadata scenario. -/
def c9fs : FS := fun p => if p = "f.txt" then some [9] else none

theorem c9_empty_metadata_same_as_none_witness :
    c9arch.isOpen = true ∧ c9arch.mode = ZMode.w ∧ c9fs "f.txt" = some [9] ∧
    (add_file c9fs c9arch "f.txt" (some (PyVal.obj [])) none =
       add_file c9fs c9arch "f.txt" none none ∧
     ∃ e, (add_file c9fs c9arch "f.txt" (some (PyVal.obj [])) none).2.st.filelist =
       c9arch.st.filelist ++ [e] ∧ e.comment = [] ∧ decodeMetadata e.comment = PyVal.obj []) :=
  ⟨rfl, rfl, rfl,
    c9_empty_metadata_same_as_none c9fs c9arch "f.txt" none rfl rfl [9] rfl⟩

/-- The filesystem of the duplicate-name scenario: two distinct source files
whose base name is the same `x.txt`. -/
def c1fs : FS := fun p =>
  if p = "a/x.txt" then some [65]
  else if p = "b/x.txt" then some [66] else none

/-- A fresh open write-mode handle. -/
def c1arch : ZipArchive :=
  ⟨ZMode.w, true, ⟨[], []⟩⟩

/-- The archive after adding `a/x.txt` (no metadata) and then `b/x.txt`
(metadata `{"v": 2}`), both stored under the base name `x.txt`. -/
def c1res : ZipArchive :=
  (add_file c1fs
    (add_file c1fs c1arch "a/x.txt" none none).2
    "b/x.txt" (some (PyVal.obj [("v", PyVal.int 2)])) none).2

/-- Claim C1: the spec says a second add under the same archive name
replaces the first, leaving exactly one `x.txt` entry in the listing. The
code does not do that: `writestr` appends to `filelist`, so after writing
`a/x.txt` and then `b/x.txt` the listing reports TWO entries named `x.txt`
— the first with the first add's content and metadata, the second with the
second's. (Name-keyed reads such as `get_file_metadata` do see the second
add, since `getinfo` resolves a name to the most recent entry; the listing
does not dedupe.) -/
theorem c1_duplicate_name_is_appended_not_replaced :
    list_contents c1res = .ok
      [{ filename := "x.txt", size := 1, compressed_size := 1, metadata := PyVal.obj [] },
       { filename := "x.txt", size := 1, compressed_size := 1,
         metadata := PyVal.obj [("v", PyVal.int 2)] }] ∧
    (c1res.st.filelist.filter (fun e => e.filename = "x.txt")).length = 2 ∧
    get_file_metadata c1res "x.txt" = .ok (PyVal.obj [("v", PyVal.int 2)]) :=
  ⟨rfl, rfl, rfl⟩
